import Mathlib

/-!
Verification development for the paragraph/text alignment and multi-voice
timestamp-synthesis subsystem of the txt2mp4 pipeline.

Text is modelled as `List Char`; Python string primitives (strip, split,
find, lower, regular-expression scans) are embedded as executable functions
on character lists.  Seconds are modelled as exact rationals.
-/

namespace Txt2Mp4

/-! ## Python string primitives -/

/-- Python whitespace class (the characters matched by str.strip and regex backslash-s
on the ASCII inputs appearing in this code base). -/
def pyIsSpace (c : Char) : Bool :=
  c = ' ' || c = '\t' || c = '\n' || c = '\r' || c = Char.ofNat 11 || c = Char.ofNat 12

def lstrip (s : List Char) : List Char := s.dropWhile pyIsSpace

def rstrip (s : List Char) : List Char := (s.reverse.dropWhile pyIsSpace).reverse

/-- Python str.strip(). -/
def pyStrip (s : List Char) : List Char := rstrip (lstrip s)

/-- Python str.lower() (ASCII case folding; the non-Latin characters used here
are unaffected by lower-casing). -/
def lowerStr (s : List Char) : List Char := s.map Char.toLower

/-- Python text.split(chr(10)). -/
def splitLines (s : List Char) : List (List Char) := s.splitOn '\n'

/-- Python str.find(needle, pos): least index at least pos where needle occurs. -/
def findFrom (hay needle : List Char) (pos : Nat) : Option Nat :=
  if pos > hay.length then none
  else
    match (List.range (hay.length + 1 - pos)).find?
        (fun k => needle.isPrefixOf (hay.drop (pos + k))) with
    | some k => some (pos + k)
    | none => none

theorem findFrom_le {hay needle : List Char} {pos i : Nat}
    (h : findFrom hay needle pos = some i) : pos ≤ i := by
  unfold findFrom at h
  split at h
  · exact absurd h (by simp)
  · split at h
    · cases h; omega
    · exact absurd h (by simp)

/-! ## Timestamp entries (the start, end, text, index, sentIndex records of
`output/03-mp3/{name}.json`).  The field `stop` models the JSON key `end`
(a reserved word in Lean); `sentIndex` is absent (`none`) until the
realignment matcher fills it in. -/

structure Entry where
  start : ℚ
  stop : ℚ
  text : List Char
  index : Nat
  sentIndex : Option Nat
deriving DecidableEq

/-! ## Trailing-punctuation attachment
(step3_generate_tts.py, `_attach_punctuation_from_source`). -/

/-- The module constant `_TRAILING_PUNCT` (period comma bang question semicolon
colon double-quote apostrophe). -/
def trailingPunct : List Char :=
  ['.', ',', '!', '?', ';', ':', Char.ofNat 34, Char.ofNat 39]

def isTrailingPunct (c : Char) : Bool := trailingPunct.contains c

/-- Python raw.rstrip(_TRAILING_PUNCT). -/
def rstripPunct (s : List Char) : List Char :=
  (s.reverse.dropWhile isTrailingPunct).reverse

/-- One iteration of the `for entry in lrc_entries` loop: returns the output
entry and the updated scan cursor `pos`. -/
def attachStep (e : Entry) (src srcLower : List Char) (pos : Nat) : Entry × Nat :=
  if e.text = [] then (e, pos)
  else
    let word := rstripPunct e.text
    match findFrom srcLower (lowerStr word) pos with
    | none => (e, pos)
    | some idx =>
      let stop0 := idx + word.length
      let punct := (src.drop stop0).takeWhile isTrailingPunct
      ({ e with text := word ++ (if punct = [] then [] else ' ' :: punct) },
       stop0 + punct.length)

def attachGo (entries : List Entry) (src srcLower : List Char) (pos : Nat) :
    List Entry :=
  match entries with
  | [] => []
  | e :: rest =>
    let p := attachStep e src srcLower pos
    p.1 :: attachGo rest src srcLower p.2

/-- `_attach_punctuation_from_source(lrc_entries, source_text)`. -/
def attachPunctuationFromSource (entries : List Entry) (sourceText : List Char) :
    List Entry :=
  if entries = [] ∨ sourceText = [] then entries
  else
    let src := sourceText.map (fun c => if c = '\n' then ' ' else c)
    attachGo entries src (lowerStr src) 0

theorem attachStep_pos_le (e : Entry) (src srcLower : List Char) (pos : Nat) :
    pos ≤ (attachStep e src srcLower pos).2 := by
  unfold attachStep
  split
  · rfl
  · rcases h : findFrom srcLower (lowerStr (rstripPunct e.text)) pos with _ | idx
    · simp [h]
    · have := findFrom_le h
      simp only [h]
      omega

theorem attachStep_nomatch (e : Entry) (src srcLower : List Char) (pos : Nat)
    (hne : e.text ≠ [])
    (h : findFrom srcLower (lowerStr (rstripPunct e.text)) pos = none) :
    attachStep e src srcLower pos = (e, pos) := by
  unfold attachStep
  simp [hne, h]

/-- Frame relation between an output entry of the punctuation pass and its
input entry: timing and index fields are unchanged and the text is either
untouched or is the bare word (existing trailing punctuation stripped) with an
optional space-separated punctuation suffix. -/
def attachFrame (o e : Entry) : Prop :=
  o.start = e.start ∧ o.stop = e.stop ∧ o.index = e.index ∧
  o.sentIndex = e.sentIndex ∧
  (o.text = e.text ∨
    ∃ p : List Char, (∀ c ∈ p, isTrailingPunct c = true) ∧
      o.text = rstripPunct e.text ++ (if p = [] then [] else ' ' :: p))

theorem attachStep_frame (e : Entry) (src srcLower : List Char) (pos : Nat) :
    attachFrame (attachStep e src srcLower pos).1 e := by
  unfold attachStep
  split
  · exact ⟨rfl, rfl, rfl, rfl, Or.inl rfl⟩
  · rcases h : findFrom srcLower (lowerStr (rstripPunct e.text)) pos with _ | idx <;>
      simp only [h]
    · exact ⟨rfl, rfl, rfl, rfl, Or.inl rfl⟩
    · refine ⟨rfl, rfl, rfl, rfl, Or.inr ?_⟩
      exact ⟨_, fun c hc => List.mem_takeWhile_imp hc, rfl⟩

theorem attachGo_forall2 (es : List Entry) (src srcLower : List Char) (pos : Nat) :
    List.Forall₂ attachFrame (attachGo es src srcLower pos) es := by
  induction es generalizing pos with
  | nil => exact List.Forall₂.nil
  | cons e rest ih =>
    exact List.Forall₂.cons (attachStep_frame e src srcLower pos) (ih _)

def c5entries : List Entry :=
  [⟨0, 1, "stay".toList, 0, none⟩, ⟨1, 2, "calm".toList, 1, none⟩,
   ⟨2, 3, "please".toList, 2, none⟩]

/-- Claim C5: on reference text "Stay calm, please." and bare tokens
stay calm please the punctuation pass yields texts "stay", "calm ,",
"please ." (punctuation appended with a separating space); for every input,
a token with no match in the reference passes through with the scan cursor
unchanged, and the scan cursor never decreases at any step. -/
theorem claim_c5_punct_attachment :
    ((attachPunctuationFromSource c5entries "Stay calm, please.".toList).map Entry.text
      = ["stay".toList, "calm ,".toList, "please .".toList]) ∧
    (∀ (e : Entry) (src srcLower : List Char) (pos : Nat),
      pos ≤ (attachStep e src srcLower pos).2) ∧
    (∀ (e : Entry) (src srcLower : List Char) (pos : Nat), e.text ≠ [] →
      findFrom srcLower (lowerStr (rstripPunct e.text)) pos = none →
      attachStep e src srcLower pos = (e, pos)) :=
  ⟨by decide, attachStep_pos_le, attachStep_nomatch⟩

theorem claim_c5_punct_attachment_witness :
    (("xyz".toList : List Char) ≠ []) ∧
    findFrom (lowerStr "abc".toList) (lowerStr (rstripPunct "xyz".toList)) 0 = none ∧
    attachStep ⟨0, 1, "xyz".toList, 0, none⟩ "abc".toList (lowerStr "abc".toList) 0
      = (⟨0, 1, "xyz".toList, 0, none⟩, 0) ∧
    3 ≤ (attachStep ⟨0, 1, "stay".toList, 0, none⟩ "no stay.".toList
          (lowerStr "no stay.".toList) 3).2 :=
  ⟨by decide, by decide,
   claim_c5_punct_attachment.2.2 ⟨0, 1, "xyz".toList, 0, none⟩ "abc".toList
     (lowerStr "abc".toList) 0 (by decide) (by decide),
   claim_c5_punct_attachment.2.1 ⟨0, 1, "stay".toList, 0, none⟩ "no stay.".toList
     (lowerStr "no stay.".toList) 3⟩

/-- Claim C9: the punctuation pass returns a list of the same length in the
same order, with start, end, index and sentIndex fields unchanged at every
position and only the text possibly rewritten (trailing punctuation stripped
and, or a space-separated punctuation suffix appended); with an empty entry
list or empty reference text the input is returned unchanged. -/
theorem claim_c9_attach_frame (es : List Entry) (src : List Char) :
    attachPunctuationFromSource es [] = es ∧
    attachPunctuationFromSource [] src = [] ∧
    (attachPunctuationFromSource es src).length = es.length ∧
    List.Forall₂ attachFrame (attachPunctuationFromSource es src) es := by
  refine ⟨by simp [attachPunctuationFromSource], by simp [attachPunctuationFromSource], ?_, ?_⟩
  · unfold attachPunctuationFromSource
    split
    · rfl
    · exact (attachGo_forall2 es _ _ 0).length_eq
  · unfold attachPunctuationFromSource
    split
    · exact (List.forall₂_same).2 (fun e _ => ⟨rfl, rfl, rfl, rfl, Or.inl rfl⟩)
    · exact attachGo_forall2 es _ _ 0

/-! ## Realignment matcher (step5_generate_mp4_html.py, `_align_lrc_to_segments`
with its helpers `_normalize_word`, `_get_md_words_flat` and
`remove_bracket_markers` from text_processor.py). -/

def isAsciiLetter (c : Char) : Bool :=
  ('a' ≤ c && c ≤ 'z') || ('A' ≤ c && c ≤ 'Z')

/-- Regex word character (backslash w): ASCII alphanumerics, underscore, and
any non-ASCII character (all non-Latin script appearing in these documents is
made of word characters for the Unicode-aware Python regex engine). -/
def pyIsWordChar (c : Char) : Bool :=
  isAsciiLetter c || c.isDigit || c = '_' || 128 ≤ c.toNat

/-- `_normalize_word`: lower-case, delete the characters that are neither word
characters nor whitespace, then strip. -/
def normalizeWord (w : List Char) : List Char :=
  pyStrip ((lowerStr w).filter (fun c => pyIsWordChar c || pyIsSpace c))

/-- Tokenizer worker: `acc` holds the reversed characters of the pending
token. -/
def pySplitWsGo : List Char → List Char → List (List Char)
  | [], acc => if acc.isEmpty then [] else [acc.reverse]
  | c :: rest, acc =>
    if pyIsSpace c then
      if acc.isEmpty then pySplitWsGo rest []
      else acc.reverse :: pySplitWsGo rest []
    else pySplitWsGo rest (c :: acc)

/-- Python str.split() with no separator: split on whitespace runs, dropping
empty pieces (also the behaviour of re.findall with pattern backslash-S+). -/
def pySplitWs (s : List Char) : List (List Char) := pySplitWsGo s []

/-- The bracket characters removed by `remove_bracket_markers` (the two CJK
quote pairs, square brackets and curly braces). -/
def vocabMarkChars : List Char :=
  ['「', '」', '【', '】', '[', ']', Char.ofNat 123, Char.ofNat 125]

/-- The caret-removal step of `remove_bracket_markers`: delete a caret that is
immediately followed by an ASCII letter (the letter is a lookahead and is
kept). -/
def stripCaret : List Char → List Char
  | [] => []
  | '^' :: c :: rest =>
    if isAsciiLetter c then c :: stripCaret rest else '^' :: stripCaret (c :: rest)
  | c :: rest => c :: stripCaret rest

/-- `remove_bracket_markers`. -/
def removeBracketMarkers (text : List Char) : List Char :=
  stripCaret (text.filter (fun c => !vocabMarkChars.contains c))

/-- Split one source unit (paragraph index `i`, token list) into flat
(index, normalized token) pairs, dropping tokens that normalize to nothing. -/
def flatTokens (i : Nat) (toks : List (List Char)) : List (Nat × List Char) :=
  toks.filterMap (fun t =>
    let n := normalizeWord t
    if n = [] then none else some (i, n))

/-- The flattening of the LRC side: entry position paired with each
whitespace-split normalized token of its text. -/
def lrcFlatOf (entries : List Entry) : List (Nat × List Char) :=
  entries.enum.flatMap (fun p => flatTokens p.1 (pySplitWs p.2.text))

/-- `_get_md_words_flat`: paragraph index paired with each normalized token of
the marker-stripped segment text. -/
def mdWordsFlat (segments : List (List Char)) : List (Nat × List Char) :=
  segments.enum.flatMap (fun p => flatTokens p.1 (pySplitWs (removeBracketMarkers p.2)))

/-- One store into the `sent_index_by_entry` dictionary. -/
def updateAsg (asg : Nat → Option Nat) (k v : Nat) : Nat → Option Nat :=
  fun j => if j = k then some v else asg j

/-- The `for j in range(0, k + 1)` multi-store of the concatenation branch. -/
def assignMany (asg : Nat → Option Nat) (keys : List Nat) (v : Nat) :
    Nat → Option Nat :=
  keys.foldl (fun a k => updateAsg a k v) asg

/-- The lookahead of the mismatch branch: the smallest count k between 1 and
min 5 (number of remaining flat tokens) such that the current token
concatenated with the next k tokens equals the current md token. -/
def tryConcat (n : List Char) (rest : List (Nat × List Char)) (mdn : List Char) :
    Option Nat :=
  (List.range' 1 (min 5 rest.length)).find?
    (fun k => (n ++ ((rest.take k).map Prod.snd).flatten) == mdn)

/-- The main `while lrc_i < len(lrc_flat)` loop.  State: remaining flat LRC
tokens, `md_idx`, `last_sent_index`, and the assignment dictionary; returns the
final dictionary and final `last_sent_index`.  The loop is run with a step
budget (first argument) that `alignLoop` sets to the number of flat tokens;
since every iteration consumes at least one token the budget is never
exhausted (`alignGo_fuel_irrel`, `claim_c8_matcher_progress`). -/
def alignGo (md : List (Nat × List Char)) :
    Nat → List (Nat × List Char) → Nat → Nat → (Nat → Option Nat) →
      ((Nat → Option Nat) × Nat)
  | _, [], _, lastSi, asg => (asg, lastSi)
  | 0, _ :: _, _, lastSi, asg => (asg, lastSi)
  | fuel + 1, (e, n) :: rest, mdIdx, lastSi, asg =>
    match md[mdIdx]? with
    | none => alignGo md fuel rest mdIdx lastSi (updateAsg asg e lastSi)
    | some (si, mdn) =>
      if n = mdn then alignGo md fuel rest (mdIdx + 1) si (updateAsg asg e si)
      else
        match tryConcat n rest mdn with
        | some k =>
          alignGo md fuel (rest.drop k) (mdIdx + 1) si
            (assignMany asg (e :: (rest.take k).map Prod.fst) si)
        | none => alignGo md fuel rest mdIdx lastSi (updateAsg asg e lastSi)

/-- The matcher loop on the whole flat token list. -/
def alignLoop (md lrc : List (Nat × List Char)) (mdIdx lastSi : Nat)
    (asg : Nat → Option Nat) : ((Nat → Option Nat) × Nat) :=
  alignGo md lrc.length lrc mdIdx lastSi asg

/-- `_align_lrc_to_segments`: run the matcher and rebuild the entry list with
a dense index and the computed sentIndex (dictionary lookup with the final
`last_sent_index` as default). -/
def alignLrcToSegments (entries : List Entry) (segments : List (List Char)) :
    List Entry :=
  let res := alignLoop (mdWordsFlat segments) (lrcFlatOf entries) 0 0 (fun _ => none)
  entries.enum.map (fun p =>
    { p.2 with index := p.1, sentIndex := some ((res.1 p.1).getD res.2) })

/-- Claim C10: the realignment matcher re-establishes the dense-index
invariant for every input: the index field of the output entry at position i
is exactly i, whatever index values the input entries carried. -/
theorem claim_c10_dense_index (entries : List Entry) (segments : List (List Char)) :
    (alignLrcToSegments entries segments).map Entry.index
      = List.range entries.length := by
  unfold alignLrcToSegments
  rw [List.map_map]
  exact List.enum_map_fst entries

theorem updateAsg_isSome_mono {asg : Nat → Option Nat} {x : Nat} (k v : Nat)
    (h : (asg x).isSome) : ((updateAsg asg k v) x).isSome := by
  unfold updateAsg
  split <;> simp [h]

theorem updateAsg_self (asg : Nat → Option Nat) (k v : Nat) :
    (updateAsg asg k v) k = some v := by
  simp [updateAsg]

theorem assignMany_isSome_mono {asg : Nat → Option Nat} {x : Nat}
    (keys : List Nat) (v : Nat) (h : (asg x).isSome) :
    ((assignMany asg keys v) x).isSome := by
  induction keys generalizing asg with
  | nil => exact h
  | cons k rest ih => exact ih (updateAsg_isSome_mono k v h)

theorem assignMany_isSome_of_mem {asg : Nat → Option Nat} {x : Nat}
    {keys : List Nat} (v : Nat) (h : x ∈ keys) :
    ((assignMany asg keys v) x).isSome := by
  induction keys generalizing asg with
  | nil => cases h
  | cons k rest ih =>
    rcases List.mem_cons.1 h with h | h
    · subst h
      exact assignMany_isSome_mono rest v (by simp [updateAsg_self])
    · exact ih h

theorem tryConcat_bounds {n mdn : List Char} {rest : List (Nat × List Char)}
    {k : Nat} (h : tryConcat n rest mdn = some k) :
    1 ≤ k ∧ k ≤ min 5 rest.length := by
  have hm := List.mem_of_find?_eq_some h
  rw [List.mem_range'_1] at hm
  omega

theorem alignGo_fuel_irrel (md : List (Nat × List Char)) :
    ∀ (fuel fuel2 : Nat) (lrc : List (Nat × List Char)) (mdIdx lastSi : Nat)
      (asg : Nat → Option Nat), lrc.length ≤ fuel → lrc.length ≤ fuel2 →
      alignGo md fuel lrc mdIdx lastSi asg = alignGo md fuel2 lrc mdIdx lastSi asg := by
  intro fuel
  induction fuel with
  | zero =>
    intro fuel2 lrc mdIdx lastSi asg h1 h2
    have hnil : lrc = [] := List.eq_nil_of_length_eq_zero (by omega)
    subst hnil
    cases fuel2 <;> rfl
  | succ f ih =>
    intro fuel2 lrc mdIdx lastSi asg h1 h2
    cases lrc with
    | nil => cases fuel2 <;> rfl
    | cons p rest =>
      obtain ⟨e, n⟩ := p
      cases fuel2 with
      | zero => simp at h2
      | succ f2 =>
        have hr1 : rest.length ≤ f := by
          simp only [List.length_cons] at h1
          omega
        have hr2 : rest.length ≤ f2 := by
          simp only [List.length_cons] at h2
          omega
        rw [alignGo, alignGo]
        cases hmd : md[mdIdx]? with
        | none =>
          simp only [hmd]
          exact ih f2 rest mdIdx lastSi _ hr1 hr2
        | some m =>
          obtain ⟨si, mdn⟩ := m
          simp only [hmd]
          by_cases heq : n = mdn
          · simp only [if_pos heq]
            exact ih f2 rest (mdIdx + 1) si _ hr1 hr2
          · simp only [if_neg heq]
            cases hk : tryConcat n rest mdn with
            | none =>
              simp only [hk]
              exact ih f2 rest mdIdx lastSi _ hr1 hr2
            | some k =>
              simp only [hk]
              exact ih f2 (rest.drop k) (mdIdx + 1) si _
                (by simp only [List.length_drop]; omega)
                (by simp only [List.length_drop]; omega)

theorem alignGo_isSome_mono (md : List (Nat × List Char)) (x : Nat) :
    ∀ (fuel : Nat) (lrc : List (Nat × List Char)) (mdIdx lastSi : Nat)
      (asg : Nat → Option Nat),
      (asg x).isSome → ((alignGo md fuel lrc mdIdx lastSi asg).1 x).isSome := by
  intro fuel
  induction fuel with
  | zero =>
    intro lrc mdIdx lastSi asg h
    cases lrc <;> exact h
  | succ f ih =>
    intro lrc mdIdx lastSi asg h
    cases lrc with
    | nil => exact h
    | cons p rest =>
      obtain ⟨e, n⟩ := p
      rw [alignGo]
      cases hmd : md[mdIdx]? with
      | none =>
        simp only [hmd]
        exact ih rest mdIdx lastSi _ (updateAsg_isSome_mono e lastSi h)
      | some m =>
        obtain ⟨si, mdn⟩ := m
        simp only [hmd]
        by_cases heq : n = mdn
        · simp only [if_pos heq]
          exact ih rest (mdIdx + 1) si _ (updateAsg_isSome_mono e si h)
        · simp only [if_neg heq]
          cases hk : tryConcat n rest mdn with
          | none =>
            simp only [hk]
            exact ih rest mdIdx lastSi _ (updateAsg_isSome_mono e lastSi h)
          | some k =>
            simp only [hk]
            exact ih _ (mdIdx + 1) si _ (assignMany_isSome_mono _ si h)

theorem alignGo_covers (md : List (Nat × List Char)) (x : Nat) (n0 : List Char) :
    ∀ (fuel : Nat) (lrc : List (Nat × List Char)) (mdIdx lastSi : Nat)
      (asg : Nat → Option Nat), lrc.length ≤ fuel → (x, n0) ∈ lrc →
      ((alignGo md fuel lrc mdIdx lastSi asg).1 x).isSome := by
  intro fuel
  induction fuel with
  | zero =>
    intro lrc mdIdx lastSi asg hf hmem
    have hnil : lrc = [] := List.eq_nil_of_length_eq_zero (by omega)
    subst hnil
    cases hmem
  | succ f ih =>
    intro lrc mdIdx lastSi asg hf hmem
    cases lrc with
    | nil => cases hmem
    | cons p rest =>
      obtain ⟨e, n⟩ := p
      have hr : rest.length ≤ f := by
        simp only [List.length_cons] at hf
        omega
      rw [alignGo]
      cases hmd : md[mdIdx]? with
      | none =>
        simp only [hmd]
        rcases List.mem_cons.1 hmem with h | h
        · cases h
          exact alignGo_isSome_mono md x f rest mdIdx lastSi _ (by simp [updateAsg_self])
        · exact ih rest mdIdx lastSi _ hr h
      | some m =>
        obtain ⟨si, mdn⟩ := m
        simp only [hmd]
        by_cases heq : n = mdn
        · simp only [if_pos heq]
          rcases List.mem_cons.1 hmem with h | h
          · cases h
            exact alignGo_isSome_mono md x f rest (mdIdx + 1) si _
              (by simp [updateAsg_self])
          · exact ih rest (mdIdx + 1) si _ hr h
        · simp only [if_neg heq]
          cases hk : tryConcat n rest mdn with
          | none =>
            simp only [hk]
            rcases List.mem_cons.1 hmem with h | h
            · cases h
              exact alignGo_isSome_mono md x f rest mdIdx lastSi _
                (by simp [updateAsg_self])
            · exact ih rest mdIdx lastSi _ hr h
          | some k =>
            simp only [hk]
            rcases List.mem_cons.1 hmem with h | h
            · cases h
              exact alignGo_isSome_mono md x f _ (mdIdx + 1) si _
                (assignMany_isSome_of_mem si (List.mem_cons_self _ _))
            · rw [← List.take_append_drop k rest] at h
              rcases List.mem_append.1 h with h | h
              · exact alignGo_isSome_mono md x f _ (mdIdx + 1) si _
                  (assignMany_isSome_of_mem si
                    (List.mem_cons_of_mem _ (List.mem_map_of_mem Prod.fst h)))
              · exact ih (rest.drop k) (mdIdx + 1) si _
                  (by simp only [List.length_drop]; omega) h

/-- Claim C8: the matcher main loop always makes strictly positive forward
progress on the TTS side: from any state with a remaining head token, the
result equals the result of a recursive call on a suffix obtained by dropping
k tokens with 1 ≤ k ≤ min 6 (number remaining) (k = 1 on md exhaustion,
exact match and carry-forward; k is the concatenation length plus one, at most
6, on a concatenation match); consequently the walk covers every flat token
and every one of their entries receives an assignment. -/
theorem claim_c8_matcher_progress :
    (∀ (md : List (Nat × List Char)) (e : Nat) (n : List Char)
        (rest : List (Nat × List Char)) (mdIdx lastSi : Nat)
        (asg : Nat → Option Nat),
      ∃ k mdIdx2 lastSi2 asg2, 1 ≤ k ∧ k ≤ min 6 (rest.length + 1) ∧
        alignLoop md ((e, n) :: rest) mdIdx lastSi asg
          = alignLoop md (rest.drop (k - 1)) mdIdx2 lastSi2 asg2) ∧
    (∀ (md lrc : List (Nat × List Char)) (mdIdx lastSi : Nat)
        (asg : Nat → Option Nat) (x : Nat) (n0 : List Char), (x, n0) ∈ lrc →
      ((alignLoop md lrc mdIdx lastSi asg).1 x).isSome) := by
  constructor
  · intro md e n rest mdIdx lastSi asg
    match hmd : md[mdIdx]? with
    | none =>
      refine ⟨1, mdIdx, lastSi, updateAsg asg e lastSi, le_refl 1, by omega, ?_⟩
      show alignGo md ((e, n) :: rest).length ((e, n) :: rest) mdIdx lastSi asg = _
      rw [List.length_cons, alignGo]
      simp [hmd, alignLoop]
    | some (si, mdn) =>
      by_cases heq : n = mdn
      · refine ⟨1, mdIdx + 1, si, updateAsg asg e si, le_refl 1, by omega, ?_⟩
        show alignGo md ((e, n) :: rest).length ((e, n) :: rest) mdIdx lastSi asg = _
        rw [List.length_cons, alignGo]
        simp [hmd, heq, alignLoop]
      · match hk : tryConcat n rest mdn with
        | some k =>
          have hb := tryConcat_bounds hk
          refine ⟨k + 1, mdIdx + 1, si,
            assignMany asg (e :: (rest.take k).map Prod.fst) si, by omega, by omega, ?_⟩
          show alignGo md ((e, n) :: rest).length ((e, n) :: rest) mdIdx lastSi asg = _
          rw [List.length_cons, alignGo]
          simp only [hmd, if_neg heq, hk, alignLoop, Nat.add_sub_cancel]
          exact alignGo_fuel_irrel md rest.length (rest.drop k).length (rest.drop k)
            (mdIdx + 1) si _ (by simp only [List.length_drop]; omega) (le_refl _)
        | none =>
          refine ⟨1, mdIdx, lastSi, updateAsg asg e lastSi, le_refl 1, by omega, ?_⟩
          show alignGo md ((e, n) :: rest).length ((e, n) :: rest) mdIdx lastSi asg = _
          rw [List.length_cons, alignGo]
          simp [hmd, heq, hk, alignLoop]
  · exact fun md lrc mdIdx lastSi asg x n0 h =>
      alignGo_covers md x n0 lrc.length lrc mdIdx lastSi asg (le_refl _) h

theorem claim_c8_matcher_progress_witness :
    ((0, "a".toList) ∈ [(0, "a".toList)]) ∧
    ((alignLoop [] [(0, "a".toList)] 0 0 (fun _ => none)).1 0).isSome ∧
    (∃ k mdIdx2 lastSi2 asg2, 1 ≤ k ∧ k ≤ min 6 1 ∧
      alignLoop [] [(0, "a".toList)] 0 0 (fun _ => none)
        = alignLoop [] (([] : List (Nat × List Char)).drop (k - 1)) mdIdx2 lastSi2 asg2) :=
  ⟨by decide,
   claim_c8_matcher_progress.2 [] [(0, "a".toList)] 0 0 (fun _ => none) 0
     "a".toList (by decide),
   claim_c8_matcher_progress.1 [] 0 "a".toList [] 0 0 (fun _ => none)⟩

/-- The value left in the dictionary for key x by a sequence of stores
(key, value), applied left to right: the value of the last store with key x. -/
def lastAssign (ps : List (Nat × Nat)) (x : Nat) : Option Nat :=
  match ps with
  | [] => none
  | p :: rest =>
    match lastAssign rest x with
    | some v => some v
    | none => if p.1 = x then some p.2 else none

/-- Apply a sequence of stores to the dictionary, in order. -/
def applyPairs (asg : Nat → Option Nat) (ps : List (Nat × Nat)) : Nat → Option Nat :=
  ps.foldl (fun a p => updateAsg a p.1 p.2) asg

theorem applyPairs_eq (ps : List (Nat × Nat)) (asg : Nat → Option Nat) (x : Nat) :
    applyPairs asg ps x
      = match lastAssign ps x with
        | some v => some v
        | none => asg x := by
  induction ps generalizing asg with
  | nil => rfl
  | cons p rest ih =>
    show applyPairs (updateAsg asg p.1 p.2) rest x = _
    rw [ih]
    rcases h : lastAssign rest x with _ | v <;> simp only [lastAssign, h]
    · by_cases hx : p.1 = x
      · simp [hx, updateAsg]
      · have hx2 : ¬x = p.1 := fun h2 => hx h2.symm
        simp [hx, hx2, updateAsg]

theorem lastAssign_isSome {ps : List (Nat × Nat)} {x : Nat}
    (h : ∃ p ∈ ps, p.1 = x) : (lastAssign ps x).isSome := by
  induction ps with
  | nil => simp at h
  | cons p rest ih =>
    rcases h with ⟨q, hq, hqx⟩
    rcases List.mem_cons.1 hq with h | h
    · subst h
      rcases hrest : lastAssign rest x with _ | v <;>
        simp [lastAssign, hrest, hqx]
    · have := ih ⟨q, h, hqx⟩
      rcases hrest : lastAssign rest x with _ | v
      · rw [hrest] at this
        simp at this
      · simp [lastAssign, hrest]

theorem lastAssign_mem {ps : List (Nat × Nat)} {x v : Nat}
    (h : lastAssign ps x = some v) : ∃ p ∈ ps, p.1 = x ∧ p.2 = v := by
  induction ps with
  | nil => simp [lastAssign] at h
  | cons p rest ih =>
    rcases hrest : lastAssign rest x with _ | w
    · rw [lastAssign, hrest] at h
      by_cases hx : p.1 = x
      · rw [if_pos hx] at h
        cases h
        exact ⟨p, List.mem_cons_self _ _, hx, rfl⟩
      · rw [if_neg hx] at h
        cases h
    · rw [lastAssign, hrest] at h
      cases h
      obtain ⟨q, hq, hqx, hqv⟩ := ih hrest
      exact ⟨q, List.mem_cons_of_mem _ hq, hqx, hqv⟩

/-- The final `last_sent_index` after the lockstep walk over a list of md
paragraph indices. -/
def lastD (d : Nat) (l : List Nat) : Nat := (l.getLast?).getD d

theorem lastD_cons (d a : Nat) (l : List Nat) : lastD d (a :: l) = lastD a l := by
  cases l with
  | nil => rfl
  | cons b l =>
    unfold lastD
    rw [List.getLast?_cons_cons]
    rcases h : (b :: l).getLast? with _ | v
    · exact absurd (List.getLast?_eq_none_iff.1 h) (by simp)
    · rfl

/-- Lockstep characterization of the matcher when the two flat token lists
agree exactly: everything goes through the exact-match branch, the stores are
precisely the pairing of LRC entry positions with md paragraph indices, and
the final `last_sent_index` is the last md paragraph index. -/
theorem alignGo_lockstep (md : List (Nat × List Char)) :
    ∀ (lrc : List (Nat × List Char)) (fuel mdIdx lastSi : Nat)
      (asg : Nat → Option Nat),
      lrc.length ≤ fuel →
      lrc.map Prod.snd = (md.drop mdIdx).map Prod.snd →
      alignGo md fuel lrc mdIdx lastSi asg
        = (applyPairs asg ((lrc.map Prod.fst).zip ((md.drop mdIdx).map Prod.fst)),
           lastD lastSi ((md.drop mdIdx).map Prod.fst)) := by
  intro lrc
  induction lrc with
  | nil =>
    intro fuel mdIdx lastSi asg hf h
    have hd : md.drop mdIdx = [] := by
      have := congrArg List.length h
      simp only [List.length_map, List.length_nil] at this
      exact List.eq_nil_of_length_eq_zero this.symm
    have hnil : alignGo md fuel [] mdIdx lastSi asg = (asg, lastSi) := by
      cases fuel <;> rfl
    rw [hnil]
    simp [hd, applyPairs, lastD]
  | cons hd0 tl ih =>
    intro fuel mdIdx lastSi asg hf h
    obtain ⟨e, n⟩ := hd0
    cases fuel with
    | zero => simp at hf
    | succ f =>
      have hf2 : tl.length ≤ f := by
        simp only [List.length_cons] at hf
        omega
      cases hdrop : md.drop mdIdx with
      | nil =>
        rw [hdrop] at h
        simp at h
      | cons m mdrest =>
        obtain ⟨si, mdn⟩ := m
        rw [hdrop] at h
        simp only [List.map_cons, List.cons.injEq] at h
        obtain ⟨hn, htl⟩ := h
        have hget : md[mdIdx]? = some (si, mdn) := by
          have h0 := List.getElem?_drop md mdIdx 0
          rw [hdrop] at h0
          simpa using h0.symm
        have hdrop1 : md.drop (mdIdx + 1) = mdrest := by
          have h1 := List.drop_drop 1 mdIdx md
          rw [hdrop] at h1
          simpa using h1.symm
        subst hn
        rw [alignGo]
        simp only [hget, if_true]
        rw [ih f (mdIdx + 1) si (updateAsg asg e si) hf2 (by rw [hdrop1]; exact htl)]
        rw [hdrop1]
        simp only [List.map_cons, List.zip_cons_cons]
        rw [lastD_cons]
        rfl

theorem lrcFlat_fst_lt (entries : List Entry) :
    ∀ p ∈ lrcFlatOf entries, p.1 < entries.length := by
  intro p hp
  unfold lrcFlatOf at hp
  rw [List.mem_flatMap] at hp
  obtain ⟨q, hq, hpf⟩ := hp
  have hfst : p.1 = q.1 := by
    unfold flatTokens at hpf
    rw [List.mem_filterMap] at hpf
    obtain ⟨t, _, ht⟩ := hpf
    by_cases hn : normalizeWord t = []
    · simp [hn] at ht
    · rw [if_neg hn] at ht
      cases ht
      rfl
  rw [hfst]
  have := List.fst_lt_add_of_mem_enumFrom (n := 0) (l := entries) (x := q)
  simp only [List.enum] at hq
  have h2 := this hq
  omega

theorem enumMap_getD (entries : List Entry) (f : Nat × Entry → Entry)
    (x : Nat) (hx : x < entries.length) (d : Entry) :
    (entries.enum.map f).getD x d = f (x, entries.get ⟨x, hx⟩) := by
  rw [List.getD_eq_getElem?_getD, List.getElem?_map, List.getElem?_enum,
    List.getElem?_eq_getElem hx]
  rfl

/-- Claim C2: the realignment matcher gives every output entry a sentIndex;
and when the flattened normalized TTS tokens equal the flattened normalized
paragraph tokens one to one in order, and each entry owns tokens of a single
paragraph, then every token-owning entry receives exactly the position of its
owning paragraph. -/
theorem claim_c2_realignment :
    (∀ (entries : List Entry) (segments : List (List Char)) (e : Entry),
      e ∈ alignLrcToSegments entries segments → e.sentIndex.isSome) ∧
    (∀ (entries : List Entry) (segments : List (List Char)),
      (lrcFlatOf entries).map Prod.snd = (mdWordsFlat segments).map Prod.snd →
      (∀ i j : Fin (lrcFlatOf entries).length,
        ((lrcFlatOf entries).getD i (0, [])).1
            = ((lrcFlatOf entries).getD j (0, [])).1 →
        ((mdWordsFlat segments).getD i (0, [])).1
            = ((mdWordsFlat segments).getD j (0, [])).1) →
      ∀ j : Nat, j < (lrcFlatOf entries).length →
        ((alignLrcToSegments entries segments).getD
            ((lrcFlatOf entries).getD j (0, [])).1 ⟨0, 0, [], 0, none⟩).sentIndex
          = some (((mdWordsFlat segments).getD j (0, [])).1)) := by
  constructor
  · intro entries segments e he
    unfold alignLrcToSegments at he
    rw [List.mem_map] at he
    obtain ⟨p, _, hp⟩ := he
    rw [← hp]
    rfl
  · intro entries segments h1 h2 j hj
    have hlen : (lrcFlatOf entries).length = (mdWordsFlat segments).length := by
      have := congrArg List.length h1
      simpa using this
    have hjM : j < (mdWordsFlat segments).length := hlen ▸ hj
    have hls := alignGo_lockstep (mdWordsFlat segments) (lrcFlatOf entries)
      (lrcFlatOf entries).length 0 0 (fun _ => none) (le_refl _) (by simpa using h1)
    rw [List.drop_zero] at hls
    have hzlen : (((lrcFlatOf entries).map Prod.fst).zip
        ((mdWordsFlat segments).map Prod.fst)).length
          = (lrcFlatOf entries).length := by
      rw [List.length_zip, List.length_map, List.length_map]
      omega
    have hjP : j < (((lrcFlatOf entries).map Prod.fst).zip
        ((mdWordsFlat segments).map Prod.fst)).length := by omega
    have hpj : (((lrcFlatOf entries).map Prod.fst).zip
          ((mdWordsFlat segments).map Prod.fst)).get ⟨j, hjP⟩
        = (((lrcFlatOf entries).get ⟨j, hj⟩).1,
           ((mdWordsFlat segments).get ⟨j, hjM⟩).1) := by
      simp [List.get_eq_getElem, List.getElem_zip]
    have hmem : (((lrcFlatOf entries).get ⟨j, hj⟩).1,
        ((mdWordsFlat segments).get ⟨j, hjM⟩).1)
          ∈ ((lrcFlatOf entries).map Prod.fst).zip
              ((mdWordsFlat segments).map Prod.fst) := by
      rw [← hpj]
      exact List.get_mem _ _ _
    have hsome := @lastAssign_isSome
      (((lrcFlatOf entries).map Prod.fst).zip
        ((mdWordsFlat segments).map Prod.fst))
      (((lrcFlatOf entries).get ⟨j, hj⟩).1) ⟨_, hmem, rfl⟩
    obtain ⟨v, hv⟩ := Option.isSome_iff_exists.1 hsome
    obtain ⟨q, hq, hqx, hqv⟩ := lastAssign_mem hv
    obtain ⟨i, hiq⟩ := List.mem_iff_get.1 hq
    have hiL : (i : Nat) < (lrcFlatOf entries).length := lt_of_lt_of_eq i.2 hzlen
    have hiM : (i : Nat) < (mdWordsFlat segments).length := hlen ▸ hiL
    have hqi : q = (((lrcFlatOf entries).get ⟨i, hiL⟩).1,
        ((mdWordsFlat segments).get ⟨i, hiM⟩).1) := by
      rw [← hiq]
      simp [List.get_eq_getElem, List.getElem_zip]
    have hgdLi : ((lrcFlatOf entries).getD (i : Nat) (0, [])).1
        = ((lrcFlatOf entries).get ⟨i, hiL⟩).1 := by
      simp [List.getD_eq_getElem?_getD, List.getElem?_eq_getElem hiL,
        List.get_eq_getElem]
    have hgdLj : ((lrcFlatOf entries).getD j (0, [])).1
        = ((lrcFlatOf entries).get ⟨j, hj⟩).1 := by
      simp [List.getD_eq_getElem?_getD, List.getElem?_eq_getElem hj,
        List.get_eq_getElem]
    have hgdMi : ((mdWordsFlat segments).getD (i : Nat) (0, [])).1
        = ((mdWordsFlat segments).get ⟨i, hiM⟩).1 := by
      simp [List.getD_eq_getElem?_getD, List.getElem?_eq_getElem hiM,
        List.get_eq_getElem]
    have hgdMj : ((mdWordsFlat segments).getD j (0, [])).1
        = ((mdWordsFlat segments).get ⟨j, hjM⟩).1 := by
      simp [List.getD_eq_getElem?_getD, List.getElem?_eq_getElem hjM,
        List.get_eq_getElem]
    have hM_eq : ((mdWordsFlat segments).get ⟨i, hiM⟩).1
        = ((mdWordsFlat segments).get ⟨j, hjM⟩).1 := by
      have h4 := h2 ⟨i, hiL⟩ ⟨j, hj⟩
      rw [hgdLi, hgdLj, hgdMi, hgdMj] at h4
      apply h4
      rw [hqi] at hqx
      exact hqx
    have hv2 : v = ((mdWordsFlat segments).get ⟨j, hjM⟩).1 := by
      rw [← hqv, hqi]
      exact hM_eq
    have hxlt : ((lrcFlatOf entries).get ⟨j, hj⟩).1 < entries.length :=
      lrcFlat_fst_lt entries _ (List.get_mem _ _ _)
    have hasg : (alignLoop (mdWordsFlat segments) (lrcFlatOf entries) 0 0
          (fun _ => none)).1 (((lrcFlatOf entries).get ⟨j, hj⟩).1)
        = some (((mdWordsFlat segments).get ⟨j, hjM⟩).1) := by
      show (alignGo (mdWordsFlat segments) (lrcFlatOf entries).length
          (lrcFlatOf entries) 0 0 (fun _ => none)).1
          (((lrcFlatOf entries).get ⟨j, hj⟩).1) = _
      rw [hls]
      show applyPairs (fun _ => none)
          (((lrcFlatOf entries).map Prod.fst).zip
            ((mdWordsFlat segments).map Prod.fst))
          (((lrcFlatOf entries).get ⟨j, hj⟩).1) = _
      rw [applyPairs_eq, hv, hv2]
    rw [hgdLj, hgdMj]
    have hrepr : alignLrcToSegments entries segments
        = entries.enum.map (fun p =>
            { p.2 with
              index := p.1,
              sentIndex := some
                (((alignLoop (mdWordsFlat segments) (lrcFlatOf entries) 0 0
                    (fun _ => none)).1 p.1).getD
                  (alignLoop (mdWordsFlat segments) (lrcFlatOf entries) 0 0
                    (fun _ => none)).2) }) := rfl
    rw [hrepr, enumMap_getD entries _ _ hxlt]
    show some (((alignLoop (mdWordsFlat segments) (lrcFlatOf entries) 0 0
          (fun _ => none)).1 (((lrcFlatOf entries).get ⟨j, hj⟩).1)).getD
            (alignLoop (mdWordsFlat segments) (lrcFlatOf entries) 0 0
              (fun _ => none)).2)
        = some (((mdWordsFlat segments).get ⟨j, hjM⟩).1)
    rw [hasg]
    rfl

def c2entries : List Entry :=
  [⟨0, 1, "Hello world".toList, 0, none⟩, ⟨1, 2, "today".toList, 1, none⟩]

def c2segments : List (List Char) := ["Hello world".toList, "today".toList]

theorem claim_c2_realignment_witness :
    ((lrcFlatOf c2entries).map Prod.snd = (mdWordsFlat c2segments).map Prod.snd) ∧
    (∀ i j : Fin (lrcFlatOf c2entries).length,
      ((lrcFlatOf c2entries).getD i (0, [])).1
          = ((lrcFlatOf c2entries).getD j (0, [])).1 →
      ((mdWordsFlat c2segments).getD i (0, [])).1
          = ((mdWordsFlat c2segments).getD j (0, [])).1) ∧
    (2 < (lrcFlatOf c2entries).length) ∧
    (((alignLrcToSegments c2entries c2segments).getD
        ((lrcFlatOf c2entries).getD 2 (0, [])).1 ⟨0, 0, [], 0, none⟩).sentIndex
      = some (((mdWordsFlat c2segments).getD 2 (0, [])).1)) ∧
    (((alignLrcToSegments c2entries c2segments).getD 0 ⟨0, 0, [], 0, none⟩)
        ∈ alignLrcToSegments c2entries c2segments) ∧
    (((alignLrcToSegments c2entries c2segments).getD 0
        ⟨0, 0, [], 0, none⟩).sentIndex.isSome) :=
  ⟨by decide, by decide, by decide,
   claim_c2_realignment.2 c2entries c2segments (by decide) (by decide) 2 (by decide),
   by decide,
   claim_c2_realignment.1 c2entries c2segments _ (by decide)⟩

/-! ## Multi-segment timeline stitcher (step3_generate_tts.py,
`generate_tts_for_file`, the per-segment loop that offsets starts and ends,
renumbers the global index and accumulates the measured segment duration). -/

/-- One synthesized segment: its local timestamp entries (from `srt_to_lrc`)
and its measured audio duration (`_get_audio_duration_sec`, None on failure). -/
structure Segment where
  entries : List Entry
  duration : Option ℚ
deriving DecidableEq

def defaultEntry : Entry := ⟨0, 0, [], 0, none⟩

def defaultSeg : Segment := ⟨[], none⟩

/-- The in-place mutation of one entry inside the loop: start and end get the
running offset added, index becomes the running global counter. -/
def shiftEntry (off : ℚ) (g : Nat) (p : Nat × Entry) : Entry :=
  { p.2 with start := p.2.start + off, stop := p.2.stop + off, index := g + p.1 }

/-- The `for i, (seg_text, role) in enumerate(...)` loop of
`generate_tts_for_file`, with the per-segment synthesis output given as data:
shift the segment entries by the running offset, renumber indices from the
running global counter, then advance the offset by the measured duration when
available, else by the last shifted end time (unchanged when the segment has
no entries), and append. -/
def stitchLoop : List Segment → ℚ → Nat → List Entry
  | [], _, _ => []
  | seg :: rest, off, g =>
    let shifted := seg.entries.enum.map (shiftEntry off g)
    let off2 :=
      match seg.duration with
      | some d => off + d
      | none =>
        match shifted.getLast? with
        | some e => e.stop
        | none => off
    shifted ++ stitchLoop rest off2 (g + seg.entries.length)

def stitchSegments (segs : List Segment) : List Entry := stitchLoop segs 0 0

/-- Measured-duration offset accumulated before segment i. -/
def offsetBefore (segs : List Segment) (i : Nat) : ℚ :=
  ((segs.take i).map (fun s => s.duration.getD 0)).sum

/-- Number of entries emitted before segment i. -/
def countBefore (segs : List Segment) (i : Nat) : Nat :=
  ((segs.take i).map (fun s => s.entries.length)).sum

theorem enumMap_shift_index (l : List Entry) (off : ℚ) (g : Nat) :
    (l.enum.map (shiftEntry off g)).map Entry.index = List.range' g l.length := by
  rw [List.map_map]
  have h1 : (Entry.index ∘ shiftEntry off g) = (fun p : Nat × Entry => g + p.1) :=
    funext fun p => rfl
  rw [h1]
  have h2 : (fun p : Nat × Entry => g + p.1) = ((g + ·) ∘ Prod.fst) :=
    funext fun p => rfl
  rw [h2, ← List.map_map, List.enum_map_fst, ← List.range'_eq_map_range]

theorem stitchLoop_map_index (segs : List Segment) : ∀ (off : ℚ) (g : Nat),
    (stitchLoop segs off g).map Entry.index
      = List.range' g ((segs.map (fun s => s.entries.length)).sum) := by
  induction segs with
  | nil =>
    intro off g
    simp [stitchLoop]
  | cons seg rest ih =>
    intro off g
    rw [stitchLoop]
    simp only [List.map_append, List.map_cons, List.sum_cons]
    rw [enumMap_shift_index, ih]
    have h := List.range'_append g seg.entries.length
      ((rest.map (fun s => s.entries.length)).sum) 1
    simp only [one_mul] at h
    rw [Nat.add_comm seg.entries.length]
    exact h

theorem stitchLoop_getD (segs : List Segment) : ∀ (off : ℚ) (g : Nat),
    (∀ s ∈ segs, s.duration.isSome) →
    ∀ i j : Nat, i < segs.length → j < (segs.getD i defaultSeg).entries.length →
    (stitchLoop segs off g).getD (countBefore segs i + j) defaultEntry
      = shiftEntry (off + offsetBefore segs i) (g + countBefore segs i)
          (j, (segs.getD i defaultSeg).entries.getD j defaultEntry) := by
  induction segs with
  | nil =>
    intro off g hall i j hi hj
    cases hi
  | cons seg rest ih =>
    intro off g hall i j hi hj
    rw [stitchLoop]
    cases i with
    | zero =>
      have hc0 : countBefore (seg :: rest) 0 = 0 := rfl
      have ho0 : offsetBefore (seg :: rest) 0 = 0 := rfl
      rw [hc0, ho0]
      have hj2 : j < seg.entries.length := hj
      have hlen : (seg.entries.enum.map (shiftEntry off g)).length
          = seg.entries.length := by
        simp
      rw [List.getD_eq_getElem?_getD, Nat.zero_add, List.getElem?_append_left
          (by rw [hlen]; exact hj2)]
      rw [List.getElem?_map, List.getElem?_enum, List.getElem?_eq_getElem hj2]
      show shiftEntry off g (j, seg.entries.get ⟨j, hj2⟩)
          = shiftEntry (off + 0) (g + 0) (j, (seg.entries).getD j defaultEntry)
      rw [add_zero, Nat.add_zero, List.getD_eq_getElem?_getD,
        List.getElem?_eq_getElem hj2]
      rfl
    | succ i2 =>
      have hi2 : i2 < rest.length := by
        simp only [List.length_cons] at hi
        omega
      obtain ⟨d, hd⟩ := Option.isSome_iff_exists.1
        (hall seg (List.mem_cons_self _ _))
      have hall2 : ∀ s ∈ rest, s.duration.isSome :=
        fun s hs => hall s (List.mem_cons_of_mem _ hs)
      have hcnt : countBefore (seg :: rest) (i2 + 1)
          = seg.entries.length + countBefore rest i2 := by
        simp [countBefore, List.take_succ_cons]
      have hoff : offsetBefore (seg :: rest) (i2 + 1)
          = seg.duration.getD 0 + offsetBefore rest i2 := by
        simp [offsetBefore, List.take_succ_cons]
      have hlen : (seg.entries.enum.map (shiftEntry off g)).length
          = seg.entries.length := by
        simp
      rw [hcnt, hoff]
      rw [List.getD_eq_getElem?_getD, List.getElem?_append_right
          (by rw [hlen]; omega)]
      rw [hlen]
      have harith : seg.entries.length + countBefore rest i2 + j
          - seg.entries.length = countBefore rest i2 + j := by omega
      rw [harith, ← List.getD_eq_getElem?_getD]
      have hoff2 :
          (match seg.duration with
            | some d => off + d
            | none =>
              match (seg.entries.enum.map (shiftEntry off g)).getLast? with
              | some e => e.stop
              | none => off) = off + seg.duration.getD 0 := by
        rw [hd]
        rfl
      rw [hoff2]
      rw [ih (off + seg.duration.getD 0) (g + seg.entries.length) hall2 i2 j hi2
        (by simpa using hj)]
      show shiftEntry (off + seg.duration.getD 0 + offsetBefore rest i2)
          (g + seg.entries.length + countBefore rest i2) _
        = shiftEntry (off + (seg.duration.getD 0 + offsetBefore rest i2))
          (g + (seg.entries.length + countBefore rest i2)) _
      rw [add_assoc, Nat.add_assoc, List.getD_cons_succ]

/-- Claim C1: when every measured segment duration is available, the stitched
stream is exactly: entry j of segment i, with start and end shifted by the sum
of the measured durations of segments before i, carrying index
(entries before segment i) + j; and the index fields over the whole
concatenated stream are exactly 0 .. total - 1 in segment order then
intra-segment order. -/
theorem claim_c1_stitch_offsets (segs : List Segment)
    (hall : ∀ s ∈ segs, s.duration.isSome) :
    ((stitchSegments segs).map Entry.index
        = List.range ((segs.map (fun s => s.entries.length)).sum)) ∧
    (∀ i j : Nat, i < segs.length →
      j < (segs.getD i defaultSeg).entries.length →
      (stitchSegments segs).getD (countBefore segs i + j) defaultEntry
        = shiftEntry (offsetBefore segs i) (countBefore segs i)
            (j, (segs.getD i defaultSeg).entries.getD j defaultEntry)) := by
  constructor
  · rw [stitchSegments, stitchLoop_map_index, List.range_eq_range']
  · intro i j hi hj
    rw [stitchSegments, stitchLoop_getD segs 0 0 hall i j hi hj]
    rw [zero_add, Nat.zero_add]

def c1segments : List Segment :=
  [⟨[⟨0, 1, "one".toList, 0, none⟩, ⟨1, 2, "two".toList, 1, none⟩], some 3⟩,
   ⟨[⟨0, 2, "three".toList, 0, none⟩], some 5⟩]

theorem claim_c1_stitch_offsets_witness :
    (∀ s ∈ c1segments, s.duration.isSome) ∧
    ((stitchSegments c1segments).map Entry.index = List.range 3) ∧
    (1 < c1segments.length) ∧
    (0 < (c1segments.getD 1 defaultSeg).entries.length) ∧
    ((stitchSegments c1segments).getD (countBefore c1segments 1 + 0) defaultEntry
      = shiftEntry (offsetBefore c1segments 1) (countBefore c1segments 1)
          (0, (c1segments.getD 1 defaultSeg).entries.getD 0 defaultEntry)) :=
  ⟨by decide, (claim_c1_stitch_offsets c1segments (by decide)).1, by decide, by decide,
   (claim_c1_stitch_offsets c1segments (by decide)).2 1 0 (by decide) (by decide)⟩

theorem claim_c9_attach_frame_witness :
    (attachPunctuationFromSource c5entries [] = c5entries) ∧
    (attachPunctuationFromSource [] "Stay calm, please.".toList = []) ∧
    (attachPunctuationFromSource c5entries "Stay calm, please.".toList).length
      = c5entries.length ∧
    List.Forall₂ attachFrame
      (attachPunctuationFromSource c5entries "Stay calm, please.".toList) c5entries :=
  claim_c9_attach_frame c5entries "Stay calm, please.".toList

/-! ## Role registry (utils/voice_role.py) and the plain-text paragraph
parser (utils/text_processor.py, `parse_paragraphs_from_txt`). -/

inductive Role
  | narration
  | male
  | female
  | boy
  | girl
deriving DecidableEq

/-- `SHORTHAND_TO_ROLE`: shorthand or full word (already lower-cased) to
role. -/
def shorthandToRole (key : List Char) : Option Role :=
  if key = "n".toList then some Role.narration
  else if key = "narration".toList then some Role.narration
  else if key = "独白".toList then some Role.narration
  else if key = "独".toList then some Role.narration
  else if key = "m".toList then some Role.male
  else if key = "male".toList then some Role.male
  else if key = "男".toList then some Role.male
  else if key = "f".toList then some Role.female
  else if key = "female".toList then some Role.female
  else if key = "女".toList then some Role.female
  else if key = "b".toList then some Role.boy
  else if key = "boy".toList then some Role.boy
  else if key = "童男".toList then some Role.boy
  else if key = "g".toList then some Role.girl
  else if key = "girl".toList then some Role.girl
  else if key = "童女".toList then some Role.girl
  else none

/-- `parse_role_tag`: the stripped line must have the exact shape of an
opening bracket, a nonempty newline-free inner text, and a closing bracket
(the anchored regex, whose dot does not match a newline); the inner text is
stripped, lower-cased and looked up in the shorthand table.  (The second
dictionary lookup in the source, keyed by the whole bracketed string, can
never hit because no table key contains a bracket.) -/
def parseRoleTag (line : List Char) : Option Role :=
  let s := pyStrip line
  if 3 ≤ s.length ∧ s.head? = some '[' ∧ s.getLast? = some ']' then
    let inner := (s.drop 1).dropLast
    if inner.contains '\n' then none
    else
      let key := lowerStr (pyStrip inner)
      if key = [] then none else shorthandToRole key
  else none

/-- The token alternation of `_ROLE_PREFIX_RE`, with the role each token
resolves to. -/
def roleMarkTokens : List (List Char × Role) :=
  [("n".toList, Role.narration), ("m".toList, Role.male),
   ("f".toList, Role.female), ("b".toList, Role.boy), ("g".toList, Role.girl),
   ("narration".toList, Role.narration), ("male".toList, Role.male),
   ("female".toList, Role.female), ("boy".toList, Role.boy),
   ("girl".toList, Role.girl), ("独白".toList, Role.narration),
   ("独".toList, Role.narration), ("男".toList, Role.male),
   ("女".toList, Role.female), ("童男".toList, Role.boy),
   ("童女".toList, Role.girl)]

/-- Match `\[token\]` case-insensitively at the head of an already-stripped
string; returns the remainder after the closing bracket and the role.  The
token alternatives are mutually exclusive here because the closing bracket is
required right after the token. -/
def matchRoleMark (s : List Char) : Option (List Char × Role) :=
  match s with
  | '[' :: rest =>
    roleMarkTokens.findSome? (fun p =>
      if lowerStr (rest.take p.1.length) = p.1
          ∧ (rest.drop p.1.length).head? = some ']' then
        some (rest.drop (p.1.length + 1), p.2)
      else none)
  | _ => none

/-- `strip_leading_role_prefix` of voice_role.py: on the stripped text, match
the bracketed role token, then optional whitespace, an optional colon and
optional whitespace; return the stripped remainder and the role.  Without a
match the original text is returned with no role. -/
def stripLeadingRoleMark (text : List Char) : List Char × Option Role :=
  let s := pyStrip text
  match matchRoleMark s with
  | none => (text, none)
  | some pr =>
    let r1 := pr.1.dropWhile pyIsSpace
    let r2 := if r1.head? = some ':' then r1.drop 1 else r1
    let r3 := r2.dropWhile pyIsSpace
    (pyStrip r3, some pr.2)

structure Paragraph where
  english : List Char
  chinese : List Char
  role : Role
deriving DecidableEq

def isCJK (c : Char) : Bool := decide (0x4e00 ≤ c.toNat ∧ c.toNat ≤ 0x9fff)

/-- `_is_chinese_line`: at least 3 characters of the translation script on the
stripped line. -/
def isChineseLine (line : List Char) : Bool :=
  let l := pyStrip line
  if l.isEmpty then false else decide (3 ≤ (l.filter isCJK).length)

/-- The newline join of the accumulated English buffer. -/
def joinNl (ls : List (List Char)) : List Char := List.intercalate ['\n'] ls

/-- No-translation mode of `parse_paragraphs_from_txt`: each nonempty,
non-tag line becomes one paragraph; a standalone tag line sets the pending
role for the next paragraph; a leading bracketed role mark on the line is
stripped and overrides the pending role; pending resets to narration after
each paragraph. -/
def lineModeGo : List (List Char) → Role → List Paragraph
  | [], _ => []
  | l :: rest, pending =>
    let s := pyStrip l
    if s.isEmpty then lineModeGo rest pending
    else
      match parseRoleTag s with
      | some r => lineModeGo rest r
      | none =>
        let pr := stripLeadingRoleMark s
        let pending2 := pr.2.getD pending
        let eng := if pr.1.isEmpty then s else pr.1
        ⟨eng, [], pending2⟩ :: lineModeGo rest Role.narration

/-- Alternating mode of `parse_paragraphs_from_txt`: state is the pending
English buffer, the pending translation line, and the pending role.  A
translation line closes the paragraph when English is buffered, else it is
held; a source line first flushes a held (buffer, translation) pair, then has
a leading role mark stripped and is appended to the buffer when nonempty; a
trailing buffer is emitted with whatever translation is held. -/
def altModeGo : List (List Char) → List (List Char) → List Char → Role →
    List Paragraph
  | [], engBuf, chin, pending =>
    if engBuf.isEmpty then [] else [⟨joinNl engBuf, chin, pending⟩]
  | l :: rest, engBuf, chin, pending =>
    let s := pyStrip l
    if s.isEmpty then altModeGo rest engBuf chin pending
    else
      match parseRoleTag s with
      | some r => altModeGo rest engBuf chin r
      | none =>
        if isChineseLine s then
          if engBuf.isEmpty then altModeGo rest engBuf s pending
          else ⟨joinNl engBuf, s, pending⟩ :: altModeGo rest [] [] Role.narration
        else
          if !engBuf.isEmpty && !chin.isEmpty then
            ⟨joinNl engBuf, chin, pending⟩ ::
              (let pr := stripLeadingRoleMark s
               altModeGo rest (if pr.1.isEmpty then [] else [pr.1]) []
                 (pr.2.getD Role.narration))
          else
            let pr := stripLeadingRoleMark s
            altModeGo rest (engBuf ++ if pr.1.isEmpty then [] else [pr.1]) chin
              (pr.2.getD pending)

/-- `parse_paragraphs_from_txt`: strip and split the document, detect whether
any translation line is present, and run the matching mode. -/
def parseParagraphsFromTxt (text : List Char) : List Paragraph :=
  let lines := splitLines (pyStrip text)
  let hasAnyChinese := (lines.filter (fun l => !(pyStrip l).isEmpty)).any isChineseLine
  if !hasAnyChinese then lineModeGo lines Role.narration
  else altModeGo lines [] [] Role.narration

/-! ## Claim C3: alternating-mode paragraph counting. -/

structure AltScan where
  groups : Nat
  trailing : Bool
  dangling : Bool
deriving DecidableEq

/-- Spec-side accounting of alternating mode, following the words of the
specification: skipping blank and role-tag lines, a translation line that
arrives while the English buffer is nonempty terminates one group and clears
the buffer; a source line extends the buffer when its mark-stripped text is
nonempty; `trailing` reports an unterminated English buffer at the end.  A
translation line arriving with an empty English buffer is outside the
behaviour the spec describes and is flagged as `dangling`. -/
def specAltScan : List (List Char) → Bool → AltScan
  | [], buf => ⟨0, buf, false⟩
  | l :: rest, buf =>
    let s := pyStrip l
    if s.isEmpty then specAltScan rest buf
    else if (parseRoleTag s).isSome then specAltScan rest buf
    else if isChineseLine s then
      if buf then
        let r := specAltScan rest false
        ⟨r.groups + 1, r.trailing, r.dangling⟩
      else
        let r := specAltScan rest false
        ⟨r.groups, r.trailing, true⟩
    else
      specAltScan rest (buf || !((stripLeadingRoleMark s).1.isEmpty))

theorem altModeGo_count (lines : List (List Char)) :
    ∀ (engBuf : List (List Char)) (pending : Role),
      (specAltScan lines (!engBuf.isEmpty)).dangling = false →
      ((altModeGo lines engBuf [] pending).length
          = (specAltScan lines (!engBuf.isEmpty)).groups
            + (if (specAltScan lines (!engBuf.isEmpty)).trailing then 1 else 0)) ∧
      ((specAltScan lines (!engBuf.isEmpty)).trailing = true →
        ((altModeGo lines engBuf [] pending).getLast?).map Paragraph.chinese
          = some []) := by
  induction lines with
  | nil =>
    intro engBuf pending _
    constructor
    · by_cases hb : engBuf.isEmpty <;> simp [altModeGo, specAltScan, hb]
    · intro ht
      have hb : engBuf.isEmpty = false := by
        rw [specAltScan] at ht
        cases h : engBuf.isEmpty
        · rfl
        · rw [h] at ht
          exact absurd ht (by simp)
      simp [altModeGo, hb]
  | cons l rest ih =>
    intro engBuf pending hd
    by_cases hs : (pyStrip l).isEmpty
    · have e1 : altModeGo (l :: rest) engBuf [] pending
          = altModeGo rest engBuf [] pending := by
        rw [altModeGo]
        simp [hs]
      have e2 : specAltScan (l :: rest) (!engBuf.isEmpty)
          = specAltScan rest (!engBuf.isEmpty) := by
        rw [specAltScan]
        simp [hs]
      rw [e2] at hd
      rw [e1, e2]
      exact ih engBuf pending hd
    · by_cases htag : (parseRoleTag (pyStrip l)).isSome
      · obtain ⟨r, hr⟩ := Option.isSome_iff_exists.1 htag
        have e1 : altModeGo (l :: rest) engBuf [] pending
            = altModeGo rest engBuf [] r := by
          rw [altModeGo]
          simp [hs, hr]
        have e2 : specAltScan (l :: rest) (!engBuf.isEmpty)
            = specAltScan rest (!engBuf.isEmpty) := by
          rw [specAltScan]
          simp [hs, htag]
        rw [e2] at hd
        rw [e1, e2]
        exact ih engBuf r hd
      · have hr : parseRoleTag (pyStrip l) = none :=
          Option.not_isSome_iff_eq_none.1 htag
        by_cases hch : isChineseLine (pyStrip l)
        · by_cases hb : engBuf.isEmpty
          · exfalso
            rw [specAltScan] at hd
            simp [hs, htag, hch, hb] at hd
          · have e1 : altModeGo (l :: rest) engBuf [] pending
                = ⟨joinNl engBuf, pyStrip l, pending⟩
                    :: altModeGo rest [] [] Role.narration := by
              rw [altModeGo]
              simp [hs, hr, hch, hb]
            have e2 : specAltScan (l :: rest) (!engBuf.isEmpty)
                = ⟨(specAltScan rest false).groups + 1,
                   (specAltScan rest false).trailing,
                   (specAltScan rest false).dangling⟩ := by
              rw [specAltScan]
              simp [hs, htag, hch, hb]
            rw [e2] at hd
            have hd2 : (specAltScan rest false).dangling = false := hd
            have ihr := ih [] Role.narration (by simpa using hd2)
            simp only [List.isEmpty_nil, Bool.not_true] at ihr
            rw [e1, e2]
            constructor
            · simp only [List.length_cons]
              have hlen := ihr.1
              by_cases htr : (specAltScan rest false).trailing <;>
                simp only [htr, if_true, if_false] at hlen ⊢ <;> omega
            · intro ht
              have ht2 : (specAltScan rest false).trailing = true := ht
              have hlast := ihr.2 ht2
              have hne : altModeGo rest [] [] Role.narration ≠ [] := by
                have hlen := ihr.1
                rw [ht2] at hlen
                simp only [if_true] at hlen
                intro hnil
                rw [hnil] at hlen
                simp at hlen
              cases hout : altModeGo rest [] [] Role.narration with
              | nil => exact absurd hout hne
              | cons a out2 =>
                rw [hout] at hlast
                rw [List.getLast?_cons_cons]
                exact hlast
        · have e1 : altModeGo (l :: rest) engBuf [] pending
              = altModeGo rest
                  (engBuf ++ if (stripLeadingRoleMark (pyStrip l)).1.isEmpty
                    then [] else [(stripLeadingRoleMark (pyStrip l)).1]) []
                  ((stripLeadingRoleMark (pyStrip l)).2.getD pending) := by
            rw [altModeGo]
            simp [hs, hr, hch]
          have hbuf : Bool.not ((engBuf ++ if (stripLeadingRoleMark (pyStrip l)).1.isEmpty
                then [] else [(stripLeadingRoleMark (pyStrip l)).1]).isEmpty)
              = ((!engBuf.isEmpty)
                  || !(stripLeadingRoleMark (pyStrip l)).1.isEmpty) := by
            by_cases h1 : (stripLeadingRoleMark (pyStrip l)).1.isEmpty <;>
              by_cases h2 : engBuf.isEmpty <;> simp [h1, h2]
          have e2 : specAltScan (l :: rest) (!engBuf.isEmpty)
              = specAltScan rest ((!engBuf.isEmpty)
                  || !(stripLeadingRoleMark (pyStrip l)).1.isEmpty) := by
            rw [specAltScan]
            simp [hs, htag, hch]
          rw [e2] at hd
          rw [← hbuf] at hd
          rw [e1, e2, ← hbuf]
          exact ih _ _ hd

/-- Claim C3, counterexample: on the document whose translation line comes
first, alternating mode applies, no group is terminated by a translation line
and a trailing buffer exists, so the claim predicts one paragraph, but the
parser emits two (the dangling translation is attached to the first buffered
source line and a second paragraph is flushed). -/
theorem claim_c3_alt_count_counterexample :
    (((splitLines (pyStrip "中文中文中文\nHello\nWorld".toList)).filter
        (fun l => !(pyStrip l).isEmpty)).any isChineseLine = true) ∧
    ((specAltScan (splitLines (pyStrip "中文中文中文\nHello\nWorld".toList))
        false).groups = 0) ∧
    ((specAltScan (splitLines (pyStrip "中文中文中文\nHello\nWorld".toList))
        false).trailing = true) ∧
    (parseParagraphsFromTxt "中文中文中文\nHello\nWorld".toList).length = 2 ∧
    (parseParagraphsFromTxt "中文中文中文\nHello\nWorld".toList).length ≠ 0 + 1 := by
  refine ⟨by decide, by decide, by decide, by decide, by decide⟩

/-- Claim C3, amended: for a document in alternating mode in which every
translation line arrives while the English buffer is nonempty (no dangling
translation), the number of emitted paragraphs equals the number of
translation-line-terminated groups plus one when a trailing unterminated
English buffer exists, and that trailing paragraph has empty translation. -/
theorem claim_c3_alt_count_amended (text : List Char)
    (halt : ((splitLines (pyStrip text)).filter
        (fun l => !(pyStrip l).isEmpty)).any isChineseLine = true)
    (hnd : (specAltScan (splitLines (pyStrip text)) false).dangling = false) :
    ((parseParagraphsFromTxt text).length
        = (specAltScan (splitLines (pyStrip text)) false).groups
          + (if (specAltScan (splitLines (pyStrip text)) false).trailing
              then 1 else 0)) ∧
    ((specAltScan (splitLines (pyStrip text)) false).trailing = true →
      ((parseParagraphsFromTxt text).getLast?).map Paragraph.chinese = some []) := by
  have hmode : parseParagraphsFromTxt text
      = altModeGo (splitLines (pyStrip text)) [] [] Role.narration := by
    unfold parseParagraphsFromTxt
    simp [halt]
  rw [hmode]
  have := altModeGo_count (splitLines (pyStrip text)) [] Role.narration
    (by simpa using hnd)
  simpa using this

theorem claim_c3_alt_count_amended_witness :
    (((splitLines (pyStrip "Hello\n你好你好你好\nWorld".toList)).filter
        (fun l => !(pyStrip l).isEmpty)).any isChineseLine = true) ∧
    ((specAltScan (splitLines (pyStrip "Hello\n你好你好你好\nWorld".toList))
        false).dangling = false) ∧
    ((parseParagraphsFromTxt "Hello\n你好你好你好\nWorld".toList).length
        = (specAltScan (splitLines (pyStrip "Hello\n你好你好你好\nWorld".toList))
            false).groups
          + (if (specAltScan (splitLines
                (pyStrip "Hello\n你好你好你好\nWorld".toList)) false).trailing
              then 1 else 0)) ∧
    ((specAltScan (splitLines (pyStrip "Hello\n你好你好你好\nWorld".toList))
        false).trailing = true →
      ((parseParagraphsFromTxt "Hello\n你好你好你好\nWorld".toList).getLast?).map
          Paragraph.chinese = some []) :=
  ⟨by decide, by decide,
   (claim_c3_alt_count_amended _ (by decide) (by decide)).1,
   (claim_c3_alt_count_amended _ (by decide) (by decide)).2⟩

/-! ## Claim C7: standalone role-tag lines. -/

/-- The content (english, chinese) of a paragraph, forgetting the role. -/
def contentOf (p : Paragraph) : List Char × List Char := (p.english, p.chinese)

theorem parseRoleTag_some_ne {l : List Char} {r : Role}
    (h : parseRoleTag l = some r) : l.isEmpty = false := by
  cases l with
  | nil =>
    have h0 : parseRoleTag ([] : List Char) = none := by decide
    rw [h0] at h
    cases h
  | cons a t => rfl

theorem stripLeadingRoleMark_none {t : List Char}
    (h : (stripLeadingRoleMark t).2 = none) :
    stripLeadingRoleMark t = (t, none) := by
  unfold stripLeadingRoleMark at h ⊢
  cases hmm2 : matchRoleMark (pyStrip t) with
  | none => simp [hmm2]
  | some pr => simp [hmm2] at h

theorem lineModeGo_cons_empty {l : List Char} {rest : List (List Char)} {p : Role}
    (hs : (pyStrip l).isEmpty = true) :
    lineModeGo (l :: rest) p = lineModeGo rest p := by
  rw [lineModeGo]
  simp [hs]

theorem lineModeGo_cons_tag {l : List Char} {rest : List (List Char)} {p r : Role}
    (hr : parseRoleTag (pyStrip l) = some r) :
    lineModeGo (l :: rest) p = lineModeGo rest r := by
  rw [lineModeGo]
  simp [parseRoleTag_some_ne hr, hr]

theorem lineModeGo_cons_line {l : List Char} {rest : List (List Char)} {p : Role}
    (hs : (pyStrip l).isEmpty = false)
    (hr : parseRoleTag (pyStrip l) = none) :
    lineModeGo (l :: rest) p
      = ⟨if (stripLeadingRoleMark (pyStrip l)).1.isEmpty
            then pyStrip l else (stripLeadingRoleMark (pyStrip l)).1, [],
          (stripLeadingRoleMark (pyStrip l)).2.getD p⟩
        :: lineModeGo rest Role.narration := by
  rw [lineModeGo]
  simp [hs, hr]

theorem altModeGo_nil {engBuf : List (List Char)} {chin : List Char} {p : Role} :
    altModeGo [] engBuf chin p
      = if engBuf.isEmpty then [] else [⟨joinNl engBuf, chin, p⟩] := by
  rw [altModeGo]

theorem altModeGo_cons_empty {l : List Char} {rest : List (List Char)}
    {engBuf : List (List Char)} {chin : List Char} {p : Role}
    (hs : (pyStrip l).isEmpty = true) :
    altModeGo (l :: rest) engBuf chin p = altModeGo rest engBuf chin p := by
  rw [altModeGo]
  simp [hs]

theorem altModeGo_cons_tag {l : List Char} {rest : List (List Char)}
    {engBuf : List (List Char)} {chin : List Char} {p r : Role}
    (hr : parseRoleTag (pyStrip l) = some r) :
    altModeGo (l :: rest) engBuf chin p = altModeGo rest engBuf chin r := by
  rw [altModeGo]
  simp [parseRoleTag_some_ne hr, hr]

theorem altModeGo_cons_chin_hold {l : List Char} {rest : List (List Char)}
    {engBuf : List (List Char)} {chin : List Char} {p : Role}
    (hs : (pyStrip l).isEmpty = false)
    (hr : parseRoleTag (pyStrip l) = none)
    (hch : isChineseLine (pyStrip l) = true)
    (hb : engBuf.isEmpty = true) :
    altModeGo (l :: rest) engBuf chin p
      = altModeGo rest engBuf (pyStrip l) p := by
  rw [altModeGo]
  simp [hs, hr, hch, hb]

theorem altModeGo_cons_chin_flush {l : List Char} {rest : List (List Char)}
    {engBuf : List (List Char)} {chin : List Char} {p : Role}
    (hs : (pyStrip l).isEmpty = false)
    (hr : parseRoleTag (pyStrip l) = none)
    (hch : isChineseLine (pyStrip l) = true)
    (hb : engBuf.isEmpty = false) :
    altModeGo (l :: rest) engBuf chin p
      = ⟨joinNl engBuf, pyStrip l, p⟩ :: altModeGo rest [] [] Role.narration := by
  rw [altModeGo]
  simp [hs, hr, hch, hb]

theorem altModeGo_cons_src {l : List Char} {rest : List (List Char)}
    {engBuf : List (List Char)} {chin : List Char} {p : Role}
    (hs : (pyStrip l).isEmpty = false)
    (hr : parseRoleTag (pyStrip l) = none)
    (hch : isChineseLine (pyStrip l) = false)
    (hnf : engBuf.isEmpty = true ∨ chin.isEmpty = true) :
    altModeGo (l :: rest) engBuf chin p
      = altModeGo rest
          (engBuf ++ if (stripLeadingRoleMark (pyStrip l)).1.isEmpty
            then [] else [(stripLeadingRoleMark (pyStrip l)).1]) chin
          ((stripLeadingRoleMark (pyStrip l)).2.getD p) := by
  rw [altModeGo]
  have hf : (!engBuf.isEmpty && !chin.isEmpty) = false := by
    rcases hnf with h | h <;> simp [h]
  simp [hs, hr, hch, hf]

theorem altModeGo_cons_src_flush {l : List Char} {rest : List (List Char)}
    {engBuf : List (List Char)} {chin : List Char} {p : Role}
    (hs : (pyStrip l).isEmpty = false)
    (hr : parseRoleTag (pyStrip l) = none)
    (hch : isChineseLine (pyStrip l) = false)
    (hb : engBuf.isEmpty = false) (hc : chin.isEmpty = false) :
    altModeGo (l :: rest) engBuf chin p
      = ⟨joinNl engBuf, chin, p⟩
        :: altModeGo rest
          (if (stripLeadingRoleMark (pyStrip l)).1.isEmpty
            then [] else [(stripLeadingRoleMark (pyStrip l)).1]) []
          ((stripLeadingRoleMark (pyStrip l)).2.getD Role.narration) := by
  rw [altModeGo]
  simp [hs, hr, hch, hb, hc]

theorem lineModeGo_content_roleIndep (lines : List (List Char)) :
    ∀ p q : Role,
      (lineModeGo lines p).map contentOf = (lineModeGo lines q).map contentOf := by
  induction lines with
  | nil => intro p q; rfl
  | cons l rest ih =>
    intro p q
    by_cases hs : (pyStrip l).isEmpty
    · rw [lineModeGo_cons_empty hs, lineModeGo_cons_empty hs]
      exact ih p q
    · have hs2 : (pyStrip l).isEmpty = false := by
        cases h : (pyStrip l).isEmpty
        · rfl
        · exact absurd h hs
      cases htag : parseRoleTag (pyStrip l) with
      | some r => rw [lineModeGo_cons_tag htag, lineModeGo_cons_tag htag]
      | none =>
        rw [lineModeGo_cons_line hs2 htag, lineModeGo_cons_line hs2 htag]
        simp only [List.map_cons, contentOf]

theorem lineModeGo_tagErase (lines : List (List Char)) :
    ∀ p : Role,
      (lineModeGo lines p).map contentOf
        = (lineModeGo (lines.filter
            (fun l => (parseRoleTag (pyStrip l)).isNone)) p).map contentOf := by
  induction lines with
  | nil => intro p; rfl
  | cons l rest ih =>
    intro p
    cases htag : parseRoleTag (pyStrip l) with
    | some r =>
      have hfil : (l :: rest).filter (fun l => (parseRoleTag (pyStrip l)).isNone)
          = rest.filter (fun l => (parseRoleTag (pyStrip l)).isNone) := by
        simp [List.filter_cons, htag]
      rw [hfil, lineModeGo_cons_tag htag,
        lineModeGo_content_roleIndep rest r p]
      exact ih p
    | none =>
      have hfil : (l :: rest).filter (fun l => (parseRoleTag (pyStrip l)).isNone)
          = l :: rest.filter (fun l => (parseRoleTag (pyStrip l)).isNone) := by
        simp [List.filter_cons, htag]
      rw [hfil]
      by_cases hs : (pyStrip l).isEmpty
      · rw [lineModeGo_cons_empty hs, lineModeGo_cons_empty hs]
        exact ih p
      · have hs2 : (pyStrip l).isEmpty = false := by
          cases h : (pyStrip l).isEmpty
          · rfl
          · exact absurd h hs
        rw [lineModeGo_cons_line hs2 htag, lineModeGo_cons_line hs2 htag]
        simp only [List.map_cons]
        rw [ih Role.narration]

theorem altModeGo_content_roleIndep (lines : List (List Char)) :
    ∀ (engBuf : List (List Char)) (chin : List Char) (p q : Role),
      (altModeGo lines engBuf chin p).map contentOf
        = (altModeGo lines engBuf chin q).map contentOf := by
  induction lines with
  | nil =>
    intro engBuf chin p q
    rw [altModeGo_nil, altModeGo_nil]
    by_cases hb : engBuf.isEmpty <;> simp [hb, contentOf]
  | cons l rest ih =>
    intro engBuf chin p q
    by_cases hs : (pyStrip l).isEmpty
    · rw [altModeGo_cons_empty hs, altModeGo_cons_empty hs]
      exact ih engBuf chin p q
    · have hs2 : (pyStrip l).isEmpty = false := by
        cases h : (pyStrip l).isEmpty
        · rfl
        · exact absurd h hs
      cases htag : parseRoleTag (pyStrip l) with
      | some r => rw [altModeGo_cons_tag htag, altModeGo_cons_tag htag]
      | none =>
        by_cases hch : isChineseLine (pyStrip l)
        · by_cases hb : engBuf.isEmpty
          · rw [altModeGo_cons_chin_hold hs2 htag hch hb,
              altModeGo_cons_chin_hold hs2 htag hch hb]
            exact ih engBuf (pyStrip l) p q
          · have hb2 : engBuf.isEmpty = false := by
              cases h : engBuf.isEmpty
              · rfl
              · exact absurd h hb
            rw [altModeGo_cons_chin_flush hs2 htag hch hb2,
              altModeGo_cons_chin_flush hs2 htag hch hb2]
            simp only [List.map_cons, contentOf]
        · have hch2 : isChineseLine (pyStrip l) = false := by
            cases h : isChineseLine (pyStrip l)
            · rfl
            · exact absurd h hch
          by_cases hb : engBuf.isEmpty
          · rw [altModeGo_cons_src hs2 htag hch2 (Or.inl hb),
              altModeGo_cons_src hs2 htag hch2 (Or.inl hb)]
            exact ih _ _ _ _
          · have hb2 : engBuf.isEmpty = false := by
              cases h : engBuf.isEmpty
              · rfl
              · exact absurd h hb
            by_cases hc : chin.isEmpty
            · rw [altModeGo_cons_src hs2 htag hch2 (Or.inr hc),
                altModeGo_cons_src hs2 htag hch2 (Or.inr hc)]
              exact ih _ _ _ _
            · have hc2 : chin.isEmpty = false := by
                cases h : chin.isEmpty
                · rfl
                · exact absurd h hc
              rw [altModeGo_cons_src_flush hs2 htag hch2 hb2 hc2,
                altModeGo_cons_src_flush hs2 htag hch2 hb2 hc2]
              simp only [List.map_cons, contentOf]

theorem altModeGo_tagErase (lines : List (List Char)) :
    ∀ (engBuf : List (List Char)) (chin : List Char) (p : Role),
      (altModeGo lines engBuf chin p).map contentOf
        = (altModeGo (lines.filter
            (fun l => (parseRoleTag (pyStrip l)).isNone)) engBuf chin p).map
              contentOf := by
  induction lines with
  | nil => intro engBuf chin p; rfl
  | cons l rest ih =>
    intro engBuf chin p
    cases htag : parseRoleTag (pyStrip l) with
    | some r =>
      have hfil : (l :: rest).filter (fun l => (parseRoleTag (pyStrip l)).isNone)
          = rest.filter (fun l => (parseRoleTag (pyStrip l)).isNone) := by
        simp [List.filter_cons, htag]
      rw [hfil, altModeGo_cons_tag htag,
        altModeGo_content_roleIndep rest engBuf chin r p]
      exact ih engBuf chin p
    | none =>
      have hfil : (l :: rest).filter (fun l => (parseRoleTag (pyStrip l)).isNone)
          = l :: rest.filter (fun l => (parseRoleTag (pyStrip l)).isNone) := by
        simp [List.filter_cons, htag]
      rw [hfil]
      by_cases hs : (pyStrip l).isEmpty
      · rw [altModeGo_cons_empty hs, altModeGo_cons_empty hs]
        exact ih engBuf chin p
      · have hs2 : (pyStrip l).isEmpty = false := by
          cases h : (pyStrip l).isEmpty
          · rfl
          · exact absurd h hs
        by_cases hch : isChineseLine (pyStrip l)
        · by_cases hb : engBuf.isEmpty
          · rw [altModeGo_cons_chin_hold hs2 htag hch hb,
              altModeGo_cons_chin_hold hs2 htag hch hb]
            exact ih engBuf (pyStrip l) p
          · have hb2 : engBuf.isEmpty = false := by
              cases h : engBuf.isEmpty
              · rfl
              · exact absurd h hb
            rw [altModeGo_cons_chin_flush hs2 htag hch hb2,
              altModeGo_cons_chin_flush hs2 htag hch hb2]
            simp only [List.map_cons]
            rw [ih [] [] Role.narration]
        · have hch2 : isChineseLine (pyStrip l) = false := by
            cases h : isChineseLine (pyStrip l)
            · rfl
            · exact absurd h hch
          by_cases hb : engBuf.isEmpty
          · rw [altModeGo_cons_src hs2 htag hch2 (Or.inl hb),
              altModeGo_cons_src hs2 htag hch2 (Or.inl hb)]
            exact ih _ _ _
          · have hb2 : engBuf.isEmpty = false := by
              cases h : engBuf.isEmpty
              · rfl
              · exact absurd h hb
            by_cases hc : chin.isEmpty
            · rw [altModeGo_cons_src hs2 htag hch2 (Or.inr hc),
                altModeGo_cons_src hs2 htag hch2 (Or.inr hc)]
              exact ih _ _ _
            · have hc2 : chin.isEmpty = false := by
                cases h : chin.isEmpty
                · rfl
                · exact absurd h hc
              rw [altModeGo_cons_src_flush hs2 htag hch2 hb2 hc2,
                altModeGo_cons_src_flush hs2 htag hch2 hb2 hc2]
              simp only [List.map_cons]
              rw [ih _ _ _]

theorem lineModeGo_tag_next (tag l : List Char) (rest : List (List Char))
    (pending r : Role)
    (htag : parseRoleTag (pyStrip tag) = some r)
    (hs : (pyStrip l).isEmpty = false)
    (hl : parseRoleTag (pyStrip l) = none)
    (hnm : (stripLeadingRoleMark (pyStrip l)).2 = none) :
    lineModeGo (tag :: l :: rest) pending
      = ⟨pyStrip l, [], r⟩ :: lineModeGo rest Role.narration := by
  rw [lineModeGo_cons_tag htag, lineModeGo_cons_line hs hl,
    stripLeadingRoleMark_none hnm]
  simp [hs]

theorem altModeGo_absorb (chin : List Char) (rest : List (List Char)) (r : Role)
    (hcs : (pyStrip chin).isEmpty = false)
    (hct : parseRoleTag (pyStrip chin) = none)
    (hcc : isChineseLine (pyStrip chin) = true) :
    ∀ (srcs : List (List Char)) (buf : List (List Char)),
      buf ++ srcs.map pyStrip ≠ [] →
      (∀ s0 ∈ srcs, (pyStrip s0).isEmpty = false
        ∧ parseRoleTag (pyStrip s0) = none
        ∧ isChineseLine (pyStrip s0) = false
        ∧ (stripLeadingRoleMark (pyStrip s0)).2 = none) →
      altModeGo (srcs ++ chin :: rest) buf [] r
        = ⟨joinNl (buf ++ srcs.map pyStrip), pyStrip chin, r⟩
            :: altModeGo rest [] [] Role.narration := by
  intro srcs
  induction srcs with
  | nil =>
    intro buf hne _
    simp only [List.map_nil, List.append_nil] at hne ⊢
    rw [List.nil_append]
    have hbe : buf.isEmpty = false := by
      cases buf with
      | nil => exact absurd rfl hne
      | cons a t => rfl
    rw [altModeGo_cons_chin_flush hcs hct hcc hbe]
  | cons s0 srcs2 ih =>
    intro buf hne hsrc
    obtain ⟨h1, h2, h3, h4⟩ := hsrc s0 (List.mem_cons_self _ _)
    have hsp := stripLeadingRoleMark_none h4
    rw [List.cons_append, altModeGo_cons_src h1 h2 h3 (Or.inr List.isEmpty_nil),
      hsp]
    simp only [h1, Bool.false_eq_true, if_false, Option.getD_none]
    rw [ih (buf ++ [pyStrip s0]) (by simp)
      (fun s hs2 => hsrc s (List.mem_cons_of_mem _ hs2))]
    simp [List.append_assoc]

theorem altModeGo_tag_next (tag chin : List Char)
    (srcs rest : List (List Char)) (pending r : Role)
    (htag : parseRoleTag (pyStrip tag) = some r)
    (hsrcs : srcs ≠ [])
    (hsrc : ∀ s0 ∈ srcs, (pyStrip s0).isEmpty = false
      ∧ parseRoleTag (pyStrip s0) = none
      ∧ isChineseLine (pyStrip s0) = false
      ∧ (stripLeadingRoleMark (pyStrip s0)).2 = none)
    (hcs : (pyStrip chin).isEmpty = false)
    (hct : parseRoleTag (pyStrip chin) = none)
    (hcc : isChineseLine (pyStrip chin) = true) :
    altModeGo (tag :: (srcs ++ chin :: rest)) [] [] pending
      = ⟨joinNl (srcs.map pyStrip), pyStrip chin, r⟩
          :: altModeGo rest [] [] Role.narration := by
  rw [altModeGo_cons_tag htag]
  rw [altModeGo_absorb chin rest r hcs hct hcc srcs []
    (by
      cases srcs with
      | nil => exact absurd rfl hsrcs
      | cons a t => simp) hsrc]
  rw [List.nil_append]

/-- Claim C7, counterexample: a standalone recognized tag line does not always
set the role of the next emitted paragraph: a later tag line before the
paragraph closes overrides it.  Here the male tag is followed by a female tag,
and the single emitted paragraph has role female, not male. -/
theorem claim_c7_roletag_counterexample :
    parseParagraphsFromTxt "[m]\n[f]\nhello".toList
        = [⟨"hello".toList, [], Role.female⟩] ∧
    parseRoleTag "[m]".toList = some Role.male ∧
    Role.female ≠ Role.male :=
  ⟨by decide, by decide, by decide⟩

/-- Claim C7, amended: a standalone recognized role-tag line never contributes
to any paragraph content (the english and chinese fields are those of the
document with all tag lines removed, in both parsing modes), and it sets the
pending role: the immediately following paragraph takes the tag role when no
later role marker overrides it before the paragraph closes, and parsing
continues with the pending role reset to narration. -/
theorem claim_c7_roletag_amended :
    (∀ (lines : List (List Char)) (p : Role),
      (lineModeGo lines p).map contentOf
        = (lineModeGo (lines.filter
            (fun l => (parseRoleTag (pyStrip l)).isNone)) p).map contentOf) ∧
    (∀ (lines : List (List Char)) (engBuf : List (List Char)) (chin : List Char)
        (p : Role),
      (altModeGo lines engBuf chin p).map contentOf
        = (altModeGo (lines.filter
            (fun l => (parseRoleTag (pyStrip l)).isNone)) engBuf chin p).map
              contentOf) ∧
    (∀ (tag l : List Char) (rest : List (List Char)) (pending r : Role),
      parseRoleTag (pyStrip tag) = some r →
      (pyStrip l).isEmpty = false →
      parseRoleTag (pyStrip l) = none →
      (stripLeadingRoleMark (pyStrip l)).2 = none →
      lineModeGo (tag :: l :: rest) pending
        = ⟨pyStrip l, [], r⟩ :: lineModeGo rest Role.narration) ∧
    (∀ (tag chin : List Char) (srcs rest : List (List Char)) (pending r : Role),
      parseRoleTag (pyStrip tag) = some r →
      srcs ≠ [] →
      (∀ s0 ∈ srcs, (pyStrip s0).isEmpty = false
        ∧ parseRoleTag (pyStrip s0) = none
        ∧ isChineseLine (pyStrip s0) = false
        ∧ (stripLeadingRoleMark (pyStrip s0)).2 = none) →
      (pyStrip chin).isEmpty = false →
      parseRoleTag (pyStrip chin) = none →
      isChineseLine (pyStrip chin) = true →
      altModeGo (tag :: (srcs ++ chin :: rest)) [] [] pending
        = ⟨joinNl (srcs.map pyStrip), pyStrip chin, r⟩
            :: altModeGo rest [] [] Role.narration) :=
  ⟨lineModeGo_tagErase, fun lines => altModeGo_tagErase lines,
   lineModeGo_tag_next, altModeGo_tag_next⟩

theorem claim_c7_roletag_amended_witness :
    (parseRoleTag (pyStrip "[f]".toList) = some Role.female) ∧
    ((pyStrip "hi".toList).isEmpty = false) ∧
    (parseRoleTag (pyStrip "hi".toList) = none) ∧
    ((stripLeadingRoleMark (pyStrip "hi".toList)).2 = none) ∧
    (lineModeGo ["[f]".toList, "hi".toList, "next".toList] Role.narration
      = ⟨"hi".toList, [], Role.female⟩
          :: lineModeGo ["next".toList] Role.narration) ∧
    ((lineModeGo ["[m]".toList, "hi".toList] Role.narration).map contentOf
      = (lineModeGo (["[m]".toList, "hi".toList].filter
          (fun l => (parseRoleTag (pyStrip l)).isNone)) Role.narration).map
            contentOf) ∧
    (altModeGo ["[m]".toList, "Hi".toList, "你好你好你好".toList] [] []
        Role.narration
      = ⟨joinNl ["Hi".toList], pyStrip "你好你好你好".toList, Role.male⟩
          :: altModeGo [] [] [] Role.narration) :=
  ⟨by decide, by decide, by decide, by decide,
   claim_c7_roletag_amended.2.2.1 "[f]".toList "hi".toList ["next".toList]
     Role.narration Role.female (by decide) (by decide) (by decide) (by decide),
   claim_c7_roletag_amended.1 ["[m]".toList, "hi".toList] Role.narration,
   claim_c7_roletag_amended.2.2.2 "[m]".toList "你好你好你好".toList
     ["Hi".toList] [] Role.narration Role.male (by decide) (by decide)
     (by decide) (by decide) (by decide) (by decide)⟩

/-! ## Claim C4: vocabulary marker extraction (utils/text_processor.py,
`extract_bracketed_vocabulary`).  The four bracket patterns and the two caret
patterns are embedded as character scanners; each scanner takes a step budget
set to the text length, which suffices because every step consumes at least
one character. -/

/-- Scanner for one bracket pattern (regex open, one-or-more non-close
characters captured, close): find an opener, capture up to the first closer
when nonempty, and continue after the closer; with no closer, no further
match is possible. -/
def bracketCapturesGo (op cl : Char) : Nat → List Char → List (List Char)
  | 0, _ => []
  | _, [] => []
  | fuel + 1, c :: rest =>
    if c = op then
      let pre := rest.takeWhile (fun x => x ≠ cl)
      match rest.dropWhile (fun x => x ≠ cl) with
      | [] => []
      | _ :: after =>
        if pre.isEmpty then bracketCapturesGo op cl fuel rest
        else pre :: bracketCapturesGo op cl fuel after
    else bracketCapturesGo op cl fuel rest

def bracketCaptures (op cl : Char) (s : List Char) : List (List Char) :=
  bracketCapturesGo op cl s.length s

/-- One regex word, ASCII letters with an optional apostrophe part (greedy;
backtracking into the letter runs can never help because the following
contexts require a non-letter).  Returns the word and the remainder. -/
def parseAlphaWord (s : List Char) : Option (List Char × List Char) :=
  let w1 := s.takeWhile isAsciiLetter
  if w1.isEmpty then none
  else
    match s.dropWhile isAsciiLetter with
    | c :: r2 =>
      if c = Char.ofNat 39 then
        let w2 := r2.takeWhile isAsciiLetter
        if w2.isEmpty then some (w1, c :: r2)
        else some (w1 ++ c :: w2, r2.dropWhile isAsciiLetter)
      else some (w1, c :: r2)
    | [] => some (w1, [])

/-- The lazy word-sequence extension of the caret-phrase pattern: accept as
soon as the lookahead (optional whitespace then an opening parenthesis) holds,
else extend by whitespace and one more word. -/
def caretPhraseExtend : Nat → List Char → List Char →
    Option (List Char × List Char)
  | 0, _, _ => none
  | fuel + 1, acc, s =>
    if (s.dropWhile pyIsSpace).head? = some '(' then some (acc, s)
    else
      let ws := s.takeWhile pyIsSpace
      if ws.isEmpty then none
      else
        match parseAlphaWord (s.dropWhile pyIsSpace) with
        | some pr => caretPhraseExtend fuel (acc ++ ws ++ pr.1) pr.2
        | none => none

/-- Scanner for the caret-phrase pattern (caret, words, lookahead for an
opening parenthesis). -/
def caretPhraseCapturesGo : Nat → List Char → List (List Char)
  | 0, _ => []
  | _, [] => []
  | fuel + 1, c :: rest =>
    if c = '^' then
      match parseAlphaWord rest with
      | some pr =>
        match caretPhraseExtend rest.length pr.1 pr.2 with
        | some cap => cap.1 :: caretPhraseCapturesGo fuel cap.2
        | none => caretPhraseCapturesGo fuel rest
      | none => caretPhraseCapturesGo fuel rest
    else caretPhraseCapturesGo fuel rest

def caretPhraseCaptures (s : List Char) : List (List Char) :=
  caretPhraseCapturesGo s.length s

/-- The lookahead class of the caret-word pattern: whitespace, sentence
punctuation, or end of text. -/
def caretWordStop (r : List Char) : Bool :=
  match r.head? with
  | none => true
  | some c2 => pyIsSpace c2 || c2 = '.' || c2 = ',' || c2 = ';' || c2 = ':'
      || c2 = '!' || c2 = '?'

/-- Scanner for the caret-word pattern (caret, one word, lookahead for
whitespace, punctuation or end). -/
def caretWordCapturesGo : Nat → List Char → List (List Char)
  | 0, _ => []
  | _, [] => []
  | fuel + 1, c :: rest =>
    if c = '^' then
      match parseAlphaWord rest with
      | some pr =>
        if caretWordStop pr.2 then pr.1 :: caretWordCapturesGo fuel pr.2
        else caretWordCapturesGo fuel rest
      | none => caretWordCapturesGo fuel rest
    else caretWordCapturesGo fuel rest

def caretWordCaptures (s : List Char) : List (List Char) :=
  caretWordCapturesGo s.length s

/-- Substring test. -/
def containsSub (hay needle : List Char) : Bool :=
  hay.tails.any (fun t => needle.isPrefixOf t)

/-- Processing of one captured term: strip, skip empty or already-seen terms,
skip a term that is a substring of an already-recorded space-containing
phrase, else append. -/
def addTerm (res : List (List Char)) (term0 : List Char) : List (List Char) :=
  let term := pyStrip term0
  if term.isEmpty then res
  else if res.contains term then res
  else if res.any (fun r => r.contains ' ' && containsSub r term) then res
  else res ++ [term]

/-- `extract_bracketed_vocabulary`: run the six patterns in source order over
the text and fold the captures through the dedup and substring-suppression
filter. -/
def extractBracketedVocabulary (text : List Char) : List (List Char) :=
  if text.isEmpty || (pyStrip text).isEmpty then []
  else
    ([bracketCaptures '「' '」' text,
      bracketCaptures '[' ']' text,
      bracketCaptures '【' '】' text,
      bracketCaptures (Char.ofNat 123) (Char.ofNat 125) text,
      caretPhraseCaptures text,
      caretWordCaptures text]).flatten.foldl addTerm []

theorem addTerm_nodup {res : List (List Char)} {t : List Char}
    (h : res.Nodup) : (addTerm res t).Nodup := by
  unfold addTerm
  simp only []
  split
  · exact h
  · split
    · exact h
    · split
      · exact h
      · rename_i h1 h2 h3
        have h2m : pyStrip t ∉ res := by simpa using h2
        simp [List.nodup_append, h, h2m]

theorem foldl_addTerm_nodup (caps : List (List Char)) :
    ∀ res : List (List Char), res.Nodup → (caps.foldl addTerm res).Nodup := by
  induction caps with
  | nil => intro res h; exact h
  | cons c rest ih => intro res h; exact ih _ (addTerm_nodup h)

/-- Claim C4, counterexample: on the claimed input the extractor returns the
four terms but in pattern order (bracket styles first, then the caret
patterns), not in first-occurrence order of the text: the claimed ordering
starting with inhabitant is not what the code produces. -/
theorem claim_c4_vocab_counterexample :
    extractBracketedVocabulary
        "The ^inhabitant lives [nearby] and 「builds」 a ^make sense of (this) hut".toList
      = ["builds".toList, "nearby".toList, "make sense of".toList,
         "inhabitant".toList] ∧
    extractBracketedVocabulary
        "The ^inhabitant lives [nearby] and 「builds」 a ^make sense of (this) hut".toList
      ≠ ["inhabitant".toList, "nearby".toList, "builds".toList,
         "make sense of".toList] := by
  refine ⟨by decide, by decide⟩

/-- Claim C4, amended: on the given input the extractor returns exactly
builds, nearby, make sense of, inhabitant — de-duplicated, ordered by pattern
(the four bracket styles in source order, then the caret-phrase pattern, then
the caret-word pattern, each in text order) — with make suppressed because it
is a substring of the already-captured space-joined phrase make sense of; and
for every input the returned list is duplicate-free. -/
theorem claim_c4_vocab_amended :
    (extractBracketedVocabulary
        "The ^inhabitant lives [nearby] and 「builds」 a ^make sense of (this) hut".toList
      = ["builds".toList, "nearby".toList, "make sense of".toList,
         "inhabitant".toList]) ∧
    ("make".toList ∉ extractBracketedVocabulary
        "The ^inhabitant lives [nearby] and 「builds」 a ^make sense of (this) hut".toList) ∧
    (("make sense of".toList : List Char).contains ' ' = true
      ∧ containsSub "make sense of".toList "make".toList = true) ∧
    (∀ text : List Char, (extractBracketedVocabulary text).Nodup) := by
  refine ⟨by decide, by decide, by decide, ?_⟩
  intro text
  unfold extractBracketedVocabulary
  split
  · exact List.nodup_nil
  · exact foldl_addTerm_nodup _ [] List.nodup_nil

theorem claim_c4_vocab_amended_witness :
    (extractBracketedVocabulary "a [x] b [x]".toList = ["x".toList]) ∧
    (extractBracketedVocabulary "a [x] b [x]".toList).Nodup :=
  ⟨by decide, claim_c4_vocab_amended.2.2.2 "a [x] b [x]".toList⟩

/-- Case-insensitive match of a lowercase literal pattern at the head of the
text; returns the remainder after the pattern. -/
def matchCi : List Char → List Char → Option (List Char)
  | [], rest => some rest
  | _ :: _, [] => none
  | p :: ps, c :: cs => if c.toLower = p then matchCi ps cs else none

def isDashStar (c : Char) : Bool := c = '-' || c = '*'

def isColonCh (c : Char) : Bool := c = ':' || c = '：'

/-- Matches the label head regex of a dash or star, optional whitespace, the
double-starred label (case-insensitive) and a half- or full-width colon at the
head of the text; returns the remainder after the colon.  The whitespace run
is taken greedily, which is exact because a whitespace character can never
match the following literal star. -/
def parseLabelHead (label : List Char) : List Char → Option (List Char)
  | [] => none
  | c :: cs =>
    if isDashStar c then
      match matchCi ("**".toList ++ label ++ "**".toList) (cs.dropWhile pyIsSpace) with
      | none => none
      | some r2 =>
        match r2 with
        | d :: r3 => if isColonCh d then some r3 else none
        | [] => none
    else none

/-- Lookahead for a newline followed by the chinese label head (without the
colon), as in the english field regex of step 618. -/
def chineseLabelLA (t : List Char) : Bool :=
  match t with
  | [] => false
  | c :: cs =>
    isDashStar c && (matchCi "**chinese**".toList (cs.dropWhile pyIsSpace)).isSome

/-- Lookahead for a newline followed by any double-starred label head, as in
the chinese field regex. -/
def anyLabelLA (t : List Char) : Bool :=
  match t with
  | [] => false
  | c :: cs => isDashStar c && (matchCi "**".toList (cs.dropWhile pyIsSpace)).isSome

/-- End-of-string anchor of the non-multiline regexes: it holds at the very
end or just before a final newline. -/
def dollarAt (s : List Char) : Bool := s.isEmpty || s = ['\n']

/-- Lookahead alternation bounding the lazily captured english content: a
newline followed by the chinese label, a blank line, or the anchor. -/
def stopEnglish (s : List Char) : Bool :=
  (match s with | '\n' :: t => chineseLabelLA t | _ => false)
    || (match s with | '\n' :: '\n' :: _ => true | _ => false)
    || dollarAt s

/-- Lookahead alternation bounding the lazily captured chinese content: a
newline followed by any label head, a blank line, or the anchor. -/
def stopChinese (s : List Char) : Bool :=
  (match s with | '\n' :: t => anyLabelLA t | _ => false)
    || (match s with | '\n' :: '\n' :: _ => true | _ => false)
    || dollarAt s

/-- Lazy dot-all capture after the greedy trailing whitespace of the head:
the shortest nonempty prefix whose remainder satisfies the lookahead.  When
everything after the head is whitespace the engine backtracks the greedy
whitespace run by one character, and the anchor accepts the empty remainder,
so the capture is the last whitespace character. -/
def lazyCapture (stop : List Char → Bool) (r3 : List Char) : Option (List Char) :=
  let ws := r3.takeWhile pyIsSpace
  let rest := r3.dropWhile pyIsSpace
  if rest.isEmpty then
    match ws.getLast? with
    | some c => if stop [] then some [c] else none
    | none => none
  else
    match (List.range' 1 rest.length).find? (fun c => stop (rest.drop c)) with
    | some c => some (rest.take c)
    | none => none

/-- Searches the block left to right for the first position where the label
head matches and the lazy capture succeeds, as re.search does; fuel is the
block length, one character being consumed per probe. -/
def searchCapture (label : List Char) (stop : List Char → Bool) :
    Nat → List Char → Option (List Char)
  | 0, _ => none
  | _ + 1, [] => none
  | f + 1, c :: cs =>
    match parseLabelHead label (c :: cs) with
    | some r3 =>
      match lazyCapture stop r3 with
      | some cap => some cap
      | none => searchCapture label stop f cs
    | none => searchCapture label stop f cs

/-- Replaces each maximal run of a newline followed by at least one further
whitespace character by the replacement, continuing after the replaced run,
as re.sub of the newline-whitespace pattern does; fuel is the text length. -/
def subNlWs (repl : List Char) : Nat → List Char → List Char
  | 0, l => l
  | _ + 1, [] => []
  | f + 1, c :: cs =>
    if c = '\n' then
      if (cs.takeWhile pyIsSpace).isEmpty then c :: subNlWs repl f cs
      else repl ++ subNlWs repl f (cs.dropWhile pyIsSpace)
    else c :: subNlWs repl f cs

/-- Removes every parenthesised group with no nested closing parenthesis, as
re.sub of the paren pattern with the empty replacement does; an unclosed
opening parenthesis stays; fuel is the text length. -/
def removeParens : Nat → List Char → List Char
  | 0, l => l
  | _ + 1, [] => []
  | f + 1, c :: cs =>
    if c = '(' then
      match cs.dropWhile (fun d => d != ')') with
      | ')' :: rest2 => removeParens f rest2
      | _ => c :: removeParens f cs
    else c :: removeParens f cs

/-- Matches the role field regex at the head of the text: the role label head,
optional whitespace, then a greedy nonempty run of non-whitespace characters
as the capture; returns the capture and the remainder after the match. -/
def parseRoleCap (l : List Char) : Option (List Char × List Char) :=
  match parseLabelHead "role".toList l with
  | none => none
  | some r3 =>
    let r4 := r3.dropWhile pyIsSpace
    let cap := r4.takeWhile (fun c => !(pyIsSpace c))
    if cap.isEmpty then none else some (cap, r4.drop cap.length)

/-- Collects the non-overlapping role field matches left to right, as
re.finditer does, resuming after each match; fuel is the block length. -/
def roleScanGo : Nat → List Char → List (List Char)
  | 0, _ => []
  | _ + 1, [] => []
  | f + 1, c :: cs =>
    match parseRoleCap (c :: cs) with
    | some pr => pr.1 :: roleScanGo f pr.2
    | none => roleScanGo f cs

/-- Embeds normalize_role of voice_role.py: strip and lower, accept a role
identifier as is, otherwise look up the shorthand table, defaulting to
narration. -/
def normalizeRole (role : List Char) : Role :=
  let r := lowerStr (pyStrip role)
  if r = "narration".toList then Role.narration
  else if r = "male".toList then Role.male
  else if r = "female".toList then Role.female
  else if r = "boy".toList then Role.boy
  else if r = "girl".toList then Role.girl
  else (shorthandToRole r).getD Role.narration

/-- Extracts the english field of a block: search, strip, rewrite
newline-plus-whitespace to a newline, strip a leading role mark, and fall
back to the unstripped content when stripping empties it. -/
def englishField (block : List Char) : Option (List Char) :=
  match searchCapture "english".toList stopEnglish block.length block with
  | none => none
  | some cap =>
    let ec := subNlWs ['\n'] (pyStrip cap).length (pyStrip cap)
    let st := (stripLeadingRoleMark ec).1
    some (if st.isEmpty then ec else st)

/-- Extracts the chinese field of a block: search, strip, rewrite
newline-plus-whitespace to a space, remove parenthesised notes and strip;
an absent field defaults to the empty string. -/
def chineseField (block : List Char) : List Char :=
  match searchCapture "chinese".toList stopChinese block.length block with
  | none => []
  | some cap =>
    let cc := subNlWs [' '] (pyStrip cap).length (pyStrip cap)
    pyStrip (removeParens cc.length cc)

/-- Extracts the role field of a block: the last role match wins and an
absent field defaults to narration. -/
def roleField (block : List Char) : Role :=
  match (roleScanGo block.length block).getLast? with
  | some cap => normalizeRole (pyStrip cap)
  | none => Role.narration

/-- Assembles the per-block paragraph of parse_paragraphs_from_markdown: a
block whose english field is missing or empty is dropped. -/
def extractBlockParagraph (block : List Char) : Option Paragraph :=
  match englishField block with
  | none => none
  | some e =>
    if e.isEmpty then none
    else some ⟨e, chineseField block, roleField block⟩

/-- Claim C6, counterexample: the english field capture is bounded only by a
following chinese label, a blank line, or the end of the block — not by the
next labeled field in general.  In a block whose english line is followed by
a role line with no blank line between them, the captured english content
runs through the role line instead of stopping before it. -/
theorem claim_c6_md_fields_counterexample :
    extractBlockParagraph "- **english**: Hello\n- **role**: male".toList
      = some ⟨"Hello\n- **role**: male".toList, [], Role.male⟩ ∧
    (extractBlockParagraph "- **english**: Hello\n- **role**: male".toList).map
        Paragraph.english
      ≠ some "Hello".toList := by
  exact ⟨by decide, by decide⟩

/-- Claim C6, amended: the english field stops at a following chinese label,
a blank line, or the end of the block (a role label does not bound it); the
chinese field stops at any following label, a blank line, or the end; with
several role labels the last one is taken; a block with no extractable
english is dropped; chinese defaults to the empty string and role defaults
to narration when absent or unrecognized; and every emitted paragraph has
nonempty english. -/
theorem claim_c6_md_fields_amended :
    (extractBlockParagraph
        "- **english**: Hi there\n- **chinese**: 你好(注)\n- **role**: f\n- **role**: male".toList
      = some ⟨"Hi there".toList, "你好".toList, Role.male⟩) ∧
    (extractBlockParagraph "- **english**: A\n\nmore text".toList
      = some ⟨"A".toList, [], Role.narration⟩) ∧
    (extractBlockParagraph "- **chinese**: 你好".toList = none) ∧
    (extractBlockParagraph "- **role**: alien\n- **english**: Hi".toList
      = some ⟨"Hi".toList, [], Role.narration⟩) ∧
    (∀ block : List Char, ∀ p : Paragraph,
      extractBlockParagraph block = some p → p.english.isEmpty = false) := by
  refine ⟨by decide, by decide, by decide, by decide, ?_⟩
  intro block p h
  unfold extractBlockParagraph at h
  cases hs : englishField block with
  | none => rw [hs] at h; exact absurd h (by simp)
  | some e =>
    rw [hs] at h
    dsimp only [] at h
    by_cases he : e.isEmpty
    · rw [if_pos he] at h
      exact absurd h (by simp)
    · rw [if_neg he] at h
      cases h
      simpa using he

theorem claim_c6_md_fields_amended_witness :
    (Paragraph.english ⟨"Hi".toList, [], Role.narration⟩).isEmpty = false :=
  claim_c6_md_fields_amended.2.2.2.2 "- **english**: Hi".toList
    ⟨"Hi".toList, [], Role.narration⟩ (by decide)

end Txt2Mp4
